import Mathlib

/-!
Verification of the `rio` single-threaded asynchronous runtime.

This file gives a shallow embedding, in Lean 4, of the parts of the `rio`
runtime relevant to its specification: the binary min-heap
(`src/util/min_heap.rs`), the timer machinery and event loop of the
scheduler (`src/rt/scheduler.rs`), the hand-rolled waker vtable
(`src/rt/task/waker.rs`), the epoll-backed I/O driver registration maps
(`src/rt/io/driver.rs`), and the `Sleep` future (`src/time/sleep.rs`).

Conventions of the embedding:
* Rust `Vec<T>` buffers become Lean `List` values; `Instant` becomes a
  `Nat` count of nanoseconds on the monotonic clock; `Duration::as_millis`
  is integer division by 10^6; the `u128 as i32` cast is reduction modulo
  2^32 read back as a two's-complement signed value.
* Loops are translated to structurally recursive functions over an explicit
  iteration budget (`fuel`).  Every top-level entry point passes a budget
  that is proved (or in witnesses, computed) to dominate the number of
  iterations the Rust loop would perform, so the budgeted function agrees
  with the loop.
* Task futures are abstracted as finite scripts: a task's computation is a
  list of poll outcomes, each an effect list (calls back into the runtime
  performed during that poll) plus a flag saying whether the poll returned
  `Pending`.  Shared `Rc<RefCell<Task>>` cells are modelled by removing the
  task record from the table while it is being polled and mutating the
  local copy, exactly as the scheduler's `tick` does.
-/

/-! ## List indexing helpers

`idx l i` is the Rust `buf[i]` read. Rust would panic out of bounds; every
use below is in bounds, and out-of-bounds reads return `default`. -/

/-- Read `l[i]`, with a `default` fallback out of bounds. -/
def idx {α : Type} [Inhabited α] (l : List α) (i : Nat) : α := l.getD i default

/-- The Rust `Vec::swap` on two in-bounds indices. -/
def listSwap {α : Type} [Inhabited α] (l : List α) (i j : Nat) : List α :=
  (l.set i (idx l j)).set j (idx l i)

/-! ## MinHeap (`src/util/min_heap.rs`)

The Rust heap is a `Vec<T>`-backed binary min-heap.  `sift_up` runs the
loop `while pos > start` and moves to `parent := (pos - 1) / 2` each
iteration, so `pos` itself bounds the iteration count and serves as fuel;
`sift_down` moves from `pos` to a child `< en` each iteration, so
`en - pos` bounds the iteration count. -/

/-- Loop body of `MinHeap::sift_up` (min_heap.rs lines 217-237): while
`start < pos`, break if `buf[pos] >= buf[parent]`, otherwise swap with the
parent and continue from the parent. -/
def siftUpGo {α : Type} [LinearOrder α] [Inhabited α] :
    Nat → List α → Nat → Nat → List α
  | 0, buf, _, _ => buf
  | fuel + 1, buf, start, pos =>
    if start < pos then
      let parent := (pos - 1) / 2
      if idx buf parent ≤ idx buf pos then buf
      else siftUpGo fuel (listSwap buf pos parent) start parent
    else buf

/-- `MinHeap::sift_up`: the fuel `pos` dominates the loop count. -/
def siftUp {α : Type} [LinearOrder α] [Inhabited α]
    (buf : List α) (start pos : Nat) : List α :=
  siftUpGo pos buf start pos

/-- Loop body of `MinHeap::sift_down` (min_heap.rs lines 251-291): stop when
the left child is out of range; otherwise take `min := left` when
`buf[pos] >= buf[left]`, upgrade to `right` when `right < en` and
`buf[min] >= buf[right]`, and swap down while `min ≠ pos`. -/
def siftDownGo {α : Type} [LinearOrder α] [Inhabited α] :
    Nat → List α → Nat → Nat → List α
  | 0, buf, _, _ => buf
  | fuel + 1, buf, en, pos =>
    let left := 2 * pos + 1
    let right := 2 * pos + 2
    if en ≤ left then buf
    else
      let m1 := if idx buf left ≤ idx buf pos then left else pos
      let m := if right < en ∧ idx buf right ≤ idx buf m1 then right else m1
      if m = pos then buf
      else siftDownGo fuel (listSwap buf m pos) en m

/-- `MinHeap::sift_down`: the fuel `en - pos` dominates the loop count. -/
def siftDown {α : Type} [LinearOrder α] [Inhabited α]
    (buf : List α) (en pos : Nat) : List α :=
  siftDownGo (en - pos) buf en pos

/-- `MinHeap` (min_heap.rs): a priority queue backed by a `Vec` buffer. -/
structure MinHeap (α : Type) where
  buf : List α

deriving DecidableEq, Inhabited

namespace MinHeap

/-- `MinHeap::new`. -/
def new {α : Type} : MinHeap α := ⟨[]⟩

/-- `MinHeap::len`. -/
def len {α : Type} (h : MinHeap α) : Nat := h.buf.length

/-- `MinHeap::is_empty`. -/
def isEmpty {α : Type} (h : MinHeap α) : Bool := h.buf.isEmpty

/-- `MinHeap::peek`: `buf.first()`. -/
def peek {α : Type} (h : MinHeap α) : Option α := h.buf.head?

/-- `MinHeap::push` (min_heap.rs lines 134-146): append the item, then the
`HeapifyGuard` sifts up from the old tail position. -/
def push {α : Type} [LinearOrder α] [Inhabited α]
    (h : MinHeap α) (item : α) : MinHeap α :=
  ⟨siftUp (h.buf ++ [item]) 0 h.buf.length⟩

/-- `Vec::swap_remove(0)`: move the last element into slot 0 and drop the
old slot-0 element. -/
def swapRemove0 {α : Type} : List α → List α
  | [] => []
  | [_] => []
  | _ :: b :: rest =>
    (b :: rest).getLast (List.cons_ne_nil b rest) :: (b :: rest).dropLast

/-- `MinHeap::pop` (min_heap.rs lines 150-167): `swap_remove(0)` then the
`HeapifyGuard` sifts down from the root with bound `len - 1`. -/
def pop {α : Type} [LinearOrder α] [Inhabited α]
    (h : MinHeap α) : Option (α × MinHeap α) :=
  match h.buf with
  | [] => none
  | x :: rest =>
    some (x, ⟨siftDown (swapRemove0 (x :: rest)) ((x :: rest).length - 1) 0⟩)

/-- `MinHeap::into_iter_sorted` collected into a list: the iterator pops
repeatedly until the heap is empty, so `len` pops exhaust it. -/
def intoIterSortedGo {α : Type} [LinearOrder α] [Inhabited α] :
    Nat → MinHeap α → List α
  | 0, _ => []
  | fuel + 1, h =>
    match h.pop with
    | none => []
    | some (x, h') => x :: intoIterSortedGo fuel h'

/-- The sequence of `MinHeap::len` successive pops (`into_iter_sorted`). -/
def intoIterSorted {α : Type} [LinearOrder α] [Inhabited α]
    (h : MinHeap α) : List α :=
  intoIterSortedGo h.len h

end MinHeap

/-- Push every element of `l`, in order, onto an initially empty heap. -/
def pushAll {α : Type} [LinearOrder α] [Inhabited α] (l : List α) : MinHeap α :=
  l.foldl MinHeap.push MinHeap.new

/-- The binary min-heap shape invariant: every non-root slot is at least its
parent slot `(i - 1) / 2`. -/
def IsHeap {α : Type} [LinearOrder α] [Inhabited α] (l : List α) : Prop :=
  ∀ i, 0 < i → i < l.length → idx l ((i - 1) / 2) ≤ idx l i

instance {α : Type} [LinearOrder α] [Inhabited α] (l : List α) :
    Decidable (IsHeap l) :=
  decidable_of_iff
    (∀ i, i < l.length → (0 < i → idx l ((i - 1) / 2) ≤ idx l i))
    ⟨fun h i h0 hl => h i hl h0, fun h i hl h0 => h i h0 hl⟩

/-! ## MinHeap: the sift operations restore the heap invariant -/

/-- State of the `sift_up` loop: every heap edge holds except possibly the
one into `pos`, and the children of `pos` already dominate the parent of
`pos` (so moving the parent down past `pos` keeps them ordered). -/
def SiftUpInv {α : Type} [LinearOrder α] [Inhabited α]
    (l : List α) (pos : Nat) : Prop :=
  (∀ i, 0 < i → i < l.length → i ≠ pos → idx l ((i - 1) / 2) ≤ idx l i) ∧
  (∀ i, 0 < i → i < l.length → (i - 1) / 2 = pos → 0 < pos →
    idx l ((pos - 1) / 2) ≤ idx l i)

/-- State of the `sift_down` loop: every heap edge holds except possibly
those out of `pos`, and the children of `pos` already dominate the parent
of `pos`. -/
def SiftDownInv {α : Type} [LinearOrder α] [Inhabited α]
    (l : List α) (pos : Nat) : Prop :=
  (∀ i, 0 < i → i < l.length → (i - 1) / 2 ≠ pos →
    idx l ((i - 1) / 2) ≤ idx l i) ∧
  (0 < pos → ∀ i, 0 < i → i < l.length → (i - 1) / 2 = pos →
    idx l ((pos - 1) / 2) ≤ idx l i)

/-! ## Timer keys and the I/O poll timeout (`src/rt/scheduler.rs`)

The scheduler's timer heap is `MinHeap<(Instant, TaskId)>` with the derived
lexicographic tuple ordering, deadlines compared first.  `Instant` is a
`Nat` of nanoseconds; `TaskId` is a `Nat`. -/

/-- A timer heap entry `(wake_at, task_id)` under the lexicographic order. -/
abbrev TimerKey : Type := Lex (Nat × Nat)

instance : Inhabited TimerKey := ⟨toLex (0, 0)⟩

instance : DecidableEq TimerKey := inferInstanceAs (DecidableEq (Nat × Nat))

/-- The deadline (`wake_at`) component of a timer entry. -/
def TimerKey.wakeAt (e : TimerKey) : Nat := (ofLex e).1

/-- The task-id component of a timer entry. -/
def TimerKey.taskId (e : TimerKey) : Nat := (ofLex e).2

/-- `Instant::checked_duration_since`: `some (d - now)` when `now ≤ d`,
`none` when the deadline lies in the past. -/
def checkedDurationSince (d now : Nat) : Option Nat :=
  if now ≤ d then some (d - now) else none

/-- `Duration::as_millis` on a nanosecond count: truncating division. -/
def durationAsMillis (ns : Nat) : Nat := ns / 1000000

/-- The Rust `u128 as i32` cast: reduce modulo 2^32 and read the result as a
two's-complement signed 32-bit value. -/
def u128AsI32 (n : Nat) : Int :=
  let r := n % 4294967296
  if r < 2147483648 then (r : Int) else (r : Int) - 4294967296

/-- The I/O poll timeout computed at the top of the event loop
(`Scheduler::block_on_task`, scheduler.rs lines 71-77):
`timers.peek().and_then(checked_duration_since(now)).map(as_millis as i32)
.unwrap_or(-1)`. -/
def computeTimeout (timers : MinHeap TimerKey) (now : Nat) : Int :=
  (((timers.peek).bind fun e => checkedDurationSince e.wakeAt now).map
    fun dur => u128AsI32 (durationAsMillis dur)).getD (-1)

/-! ## Scheduler state and tasks (`src/rt/scheduler.rs`, `src/rt/task`)

A task's type-erased future is abstracted as a finite script `prog`: each
entry is one poll, giving the effects the computation performs through the
runtime during that poll and whether the poll returns `Pending` (`true`) or
`Ready` (`false`).  An exhausted script polls as `Ready` with no effects. -/

/-- A runtime call a task's future can make during one poll: invoke its own
waker (`wake_by_ref`), or register a timer at a deadline
(`Scheduler::register_timer` with `CURRENT_TASK` set to the task). -/
inductive Effect where
  | wakeSelf : Effect
  | regTimer : Nat → Effect

deriving DecidableEq

/-- The `Task` record (task/core.rs): id, `scheduled` flag, and the future
abstracted as a poll script. -/
structure RTask where
  id : Nat
  scheduled : Bool
  prog : List (List Effect × Bool)

deriving DecidableEq

/-- Association-list model of `HashMap`: lookup of the first binding. -/
def mapLookup {κ β : Type} [DecidableEq κ] : List (κ × β) → κ → Option β
  | [], _ => none
  | (k', v) :: rest, k => if k' = k then some v else mapLookup rest k

/-- Association-list model of `HashMap::insert`: replace the existing
binding or append a new one. -/
def mapInsert {κ β : Type} [DecidableEq κ] :
    List (κ × β) → κ → β → List (κ × β)
  | [], k, v => [(k, v)]
  | (k', v') :: rest, k, v =>
    if k' = k then (k, v) :: rest else (k', v') :: mapInsert rest k v

/-- Association-list model of `HashMap::remove`: drop the binding. -/
def mapRemove {κ β : Type} [DecidableEq κ] (m : List (κ × β)) (k : κ) :
    List (κ × β) :=
  m.filter fun p => decide (p.1 ≠ k)

/-- The I/O driver's registration state (driver.rs): the kernel's epoll
interest list (fd to event mask, behaving per `epoll_ctl(2)`: `EEXIST` on
adding a present fd, `ENOENT` on modifying or deleting an absent one) and
the `registered` map from fd to waker.  Wakers are abstracted as tokens. -/
structure Driver where
  interest : List (Int × Nat)
  registered : List (Int × Nat)

deriving DecidableEq

/-- Scheduler state (scheduler.rs lines 23-44): the task table, the FIFO
ready queue of task ids, the pending spawn buffer, the timer heap, and the
I/O driver. -/
structure SchedState where
  tasks : List (Nat × RTask)
  ready : List Nat
  pending : List RTask
  timers : MinHeap TimerKey
  driver : Driver

deriving DecidableEq

/-- `Scheduler::schedule_task` (scheduler.rs lines 109-113): push the id at
the back of `ready`, unconditionally. -/
def scheduleTask (s : SchedState) (id : Nat) : SchedState :=
  {s with ready := s.ready ++ [id]}

/-- The scheduling body shared by the waker vtable's `wake` and
`wake_by_ref` (waker.rs lines 94-127): if the task's `scheduled` flag is
false, call `Scheduler::schedule_task` with its id and set the flag. -/
def wakeSchedule (t : RTask) (s : SchedState) : RTask × SchedState :=
  if t.scheduled then (t, s)
  else ({t with scheduled := true}, scheduleTask s t.id)

/-! ## Waker vtable reference counting (`src/rt/task/waker.rs`)

The vtable operations manipulate an `Rc<WakerData>` cell through the raw
primitives `Rc::from_raw`, `Rc::clone`, `mem::forget`, `Rc::into_raw`, and
the implicit drop of an owned `Rc` at scope end.  The cell is modelled by
its strong count and a liveness flag; each primitive is translated
separately and the vtable entries are their compositions, exactly as the
source composes them. -/

/-- The shared `Rc<WakerData>` cell: strong count plus liveness. -/
structure RcCell where
  strong : Nat
  live : Bool

deriving DecidableEq

/-- `Rc::from_raw`: takes ownership of one reference, count unchanged. -/
def rcFromRaw (c : RcCell) : RcCell := c

/-- `Rc::clone`: increments the strong count. -/
def rcClone (c : RcCell) : RcCell := {c with strong := c.strong + 1}

/-- `mem::forget`: relinquishes ownership without decrementing. -/
def rcForget (c : RcCell) : RcCell := c

/-- `Rc::into_raw`: converts ownership into a raw pointer, count
unchanged. -/
def rcIntoRaw (c : RcCell) : RcCell := c

/-- Dropping an owned `Rc`: decrements the count, freeing the cell when the
count reaches zero. -/
def rcDropOwned (c : RcCell) : RcCell :=
  if c.strong ≤ 1 then {strong := c.strong - 1, live := false}
  else {c with strong := c.strong - 1}

/-- Vtable `clone` (waker.rs lines 81-91): `from_raw`, `Rc::clone`, `forget`
the original, `into_raw` the clone. -/
def vtClone (c : RcCell) : RcCell :=
  rcIntoRaw (rcClone (rcForget (rcFromRaw c)))

/-- Vtable `wake` (waker.rs lines 94-108): `from_raw`, schedule if the flag
is clear, then drop the owned `Rc` at scope end. -/
def vtWake (c : RcCell) (t : RTask) (s : SchedState) :
    RcCell × RTask × SchedState :=
  let c := rcFromRaw c
  let (t, s) := wakeSchedule t s
  (rcDropOwned c, t, s)

/-- Vtable `wake_by_ref` (waker.rs lines 112-127): `from_raw`, schedule if
the flag is clear, then `forget` so the reference is not consumed. -/
def vtWakeByRef (c : RcCell) (t : RTask) (s : SchedState) :
    RcCell × RTask × SchedState :=
  let c := rcFromRaw c
  let (t, s) := wakeSchedule t s
  (rcForget c, t, s)

/-- Vtable `drop` (waker.rs lines 130-133): `from_raw`, then drop the owned
`Rc`. -/
def vtDrop (c : RcCell) : RcCell :=
  rcDropOwned (rcFromRaw c)

/-! ## I/O driver registration (`src/rt/io/driver.rs`)

`epoll_ctl` behaves per its man page: `EPOLL_CTL_ADD` fails with `EEXIST`
when the fd is already in the interest list, `EPOLL_CTL_MOD` and
`EPOLL_CTL_DEL` fail with `ENOENT` when it is not. -/

/-- `Driver::modify` (driver.rs lines 119-140): `EPOLL_CTL_MOD` updating
the interest mask; `ENOENT` (fd absent) is ignored. -/
def Driver.modify (d : Driver) (fd : Int) (events : Nat) : Driver :=
  if (mapLookup d.interest fd).isSome then
    {d with interest := mapInsert d.interest fd events}
  else d

/-- `Driver::register` (driver.rs lines 93-111): `EPOLL_CTL_ADD`; on
`EEXIST` (fd already present) upgrade to `modify` and return, skipping the
`registered.insert`; on success insert the waker under the fd. -/
def Driver.register (d : Driver) (fd : Int) (events : Nat) (w : Nat) :
    Driver :=
  if (mapLookup d.interest fd).isSome then Driver.modify d fd events
  else
    { interest := mapInsert d.interest fd events,
      registered := mapInsert d.registered fd w }

/-- `Driver::unregister` (driver.rs lines 149-152): `EPOLL_CTL_DEL`
(`ENOENT` ignored), then remove and return the stored waker. -/
def Driver.unregister (d : Driver) (fd : Int) : Driver × Option Nat :=
  ({ interest := mapRemove d.interest fd,
     registered := mapRemove d.registered fd },
   mapLookup d.registered fd)

/-! ## The `Sleep` future (`src/time/sleep.rs`) -/

/-- Result of one poll of a future. -/
inductive PollR where
  | ready : PollR
  | pending : PollR

deriving DecidableEq

/-- `Scheduler::register_timer` (scheduler.rs lines 96-99): push
`(deadline, CURRENT_TASK)` onto the timer heap. -/
def registerTimer (timers : MinHeap TimerKey) (curTask wakeAt : Nat) :
    MinHeap TimerKey :=
  timers.push (toLex (wakeAt, curTask))

/-- `Sleep` (sleep.rs lines 24-30): an absolute deadline plus the
`registered` flag. -/
structure Sleep where
  wake_at : Nat
  registered : Bool

deriving DecidableEq

/-- `Sleep::poll` (sleep.rs lines 46-73): if `now >= wake_at`, resolve;
otherwise, when the `registered` flag is clear, set it and register the
timer for the currently polled task, and in either case return pending. -/
def sleepPoll (sl : Sleep) (now curTask : Nat) (timers : MinHeap TimerKey) :
    PollR × Sleep × MinHeap TimerKey :=
  if now ≥ sl.wake_at then (.ready, sl, timers)
  else if sl.registered then (.pending, sl, timers)
  else (.pending, {sl with registered := true},
    registerTimer timers curTask sl.wake_at)

/-! ## The scheduler event loop (`src/rt/scheduler.rs`) -/

/-- Apply one effect performed during a poll of task `t` (whose entry has
been removed from the table for the duration of the poll, the local copy
being the shared `Rc` cell): `wakeSelf` runs the waker scheduling body on
the task's own cell; `regTimer d` is `Scheduler::register_timer` with
`CURRENT_TASK` equal to the task's id. -/
def applyEffect (t : RTask) (s : SchedState) : Effect → RTask × SchedState
  | .wakeSelf => wakeSchedule t s
  | .regTimer d => (t, {s with timers := registerTimer s.timers t.id d})

/-- Apply the effects of one poll in order. -/
def applyEffects (t : RTask) (s : SchedState) (effs : List Effect) :
    RTask × SchedState :=
  effs.foldl (fun ts e => applyEffect ts.1 ts.2 e) (t, s)

/-- `Task::poll`: consume the head of the script, yielding that poll's
effects and pending flag; an exhausted script polls ready with no
effects. -/
def pollScript (t : RTask) : (List Effect × Bool) × RTask :=
  match t.prog with
  | [] => (([], false), t)
  | st :: ps => (st, {t with prog := ps})

/-- Iteration budget for the drain loop of `tick`: the total remaining
script length plus the ready-queue length.  Every iteration strictly
decreases it (a poll consumes a script step and enqueues at most one id,
the `scheduled` flag having just been cleared). -/
def pollMeasure (s : SchedState) : Nat :=
  (s.tasks.map fun p => p.2.prog.length).sum + s.ready.length

/-- The body of one found-entry iteration of the drain loop of
`Scheduler::tick` (scheduler.rs lines 130-161): remove the entry from
`tasks`, clear the `scheduled` flag, poll with `CURRENT_TASK` set to the
id, and re-insert the entry when the poll returns pending. -/
def drainBody (s1 : SchedState) (id : Nat) (t : RTask) : SchedState :=
  let s2 := {s1 with tasks := mapRemove s1.tasks id}
  let t1 := {t with scheduled := false}
  let pl := pollScript t1
  let ts := applyEffects pl.2 s2 pl.1.1
  if pl.1.2 then {ts.2 with tasks := mapInsert ts.2.tasks id ts.1} else ts.2

/-- The drain loop of `Scheduler::tick`: pop the front id, discard it when
it has no entry in `tasks`, otherwise run the loop body.  The second
component logs each performed `Task::poll`, in order. -/
def drainGo : Nat → SchedState → SchedState × List Nat
  | 0, s => (s, [])
  | fuel + 1, s =>
    match s.ready with
    | [] => (s, [])
    | id :: rest =>
      let s1 := {s with ready := rest}
      match mapLookup s1.tasks id with
      | none => drainGo fuel s1
      | some t =>
        let res := drainGo fuel (drainBody s1 id t)
        (res.1, id :: res.2)

/-- The drain loop run with the dominating budget. -/
def drainReady (s : SchedState) : SchedState × List Nat :=
  drainGo (pollMeasure s) s

/-- `Scheduler::process_pending` (scheduler.rs lines 166-174): drain the
pending buffer in order; for each task, `schedule_task` its id and insert
it into the table. -/
def processPending (s : SchedState) : SchedState :=
  s.pending.foldl
    (fun acc t =>
      let acc1 := scheduleTask acc t.id
      {acc1 with tasks := mapInsert acc1.tasks t.id t})
    {s with pending := []}

/-- The loop of `Scheduler::process_timers` (scheduler.rs lines 180-199):
pop; if the popped deadline is at most `now`, `schedule_task` its id and
continue; otherwise push the entry back and stop.  One pop per entry
bounds the iteration count by the heap size. -/
def processTimersGo :
    Nat → Nat → MinHeap TimerKey → List Nat → MinHeap TimerKey × List Nat
  | 0, _, timers, ready => (timers, ready)
  | fuel + 1, now, timers, ready =>
    match timers.pop with
    | none => (timers, ready)
    | some (e, rest) =>
      if e.wakeAt ≤ now then
        processTimersGo fuel now rest (ready ++ [e.taskId])
      else (rest.push e, ready)

/-- `Scheduler::process_timers` with the dominating budget. -/
def processTimers (now : Nat) (timers : MinHeap TimerKey)
    (ready : List Nat) : MinHeap TimerKey × List Nat :=
  processTimersGo timers.len now timers ready

/-- `process_timers` acting on the scheduler state. -/
def processTimersS (now : Nat) (s : SchedState) : SchedState :=
  { s with
    timers := (processTimers now s.timers s.ready).1
    ready := (processTimers now s.timers s.ready).2 }

/-- `Scheduler::tick` (scheduler.rs lines 125-162): process pending
spawns, process expired timers, then drain the ready queue.  Also returns
the poll log. -/
def tick (now : Nat) (s : SchedState) : SchedState × List Nat :=
  drainReady (processTimersS now (processPending s))

/-- The seeding prelude of `Scheduler::block_on_task` (scheduler.rs lines
61-65): `schedule_task` the root id, then insert the root task. -/
def blockOnSeed (t : RTask) (s : SchedState) : SchedState :=
  let s1 := scheduleTask s t.id
  {s1 with tasks := mapInsert s1.tasks t.id t}

/-- A script that never invokes its own waker during any poll. -/
def NoWake (prog : List (List Effect × Bool)) : Prop :=
  ∀ st ∈ prog, Effect.wakeSelf ∉ st.1

instance (prog : List (List Effect × Bool)) : Decidable (NoWake prog) :=
  decidable_of_iff (∀ st ∈ prog, Effect.wakeSelf ∉ st.1) Iff.rfl

theorem length_listSwap {α : Type} [Inhabited α] (l : List α) (i j : Nat) :
    (listSwap l i j).length = l.length := by
  simp [listSwap]

theorem idx_set_self {α : Type} [Inhabited α] (l : List α) (i : Nat) (a : α)
    (h : i < l.length) : idx (l.set i a) i = a := by
  rw [idx, List.getD_eq_getElem _ _ (by simpa using h)]
  simp

theorem idx_set_ne {α : Type} [Inhabited α] (l : List α) (i j : Nat) (a : α)
    (hne : i ≠ j) : idx (l.set i a) j = idx l j := by
  by_cases h : j < l.length
  · rw [idx, List.getD_eq_getElem _ _ (by simpa using h), idx,
      List.getD_eq_getElem _ _ h]
    exact List.getElem_set_ne hne _
  · rw [idx, idx, List.getD_eq_getElem?_getD, List.getD_eq_getElem?_getD,
      List.getElem?_eq_none (by simpa using h),
      List.getElem?_eq_none (by omega)]

theorem idx_listSwap {α : Type} [Inhabited α] (l : List α) (i j k : Nat)
    (hi : i < l.length) (hj : j < l.length) :
    idx (listSwap l i j) k =
      if k = j then idx l i else if k = i then idx l j else idx l k := by
  unfold listSwap
  by_cases hkj : k = j
  · subst hkj
    simp only [if_pos rfl]
    exact idx_set_self _ _ _ (by simpa using hj)
  · rw [idx_set_ne _ _ _ _ (fun h => hkj h.symm)]
    by_cases hki : k = i
    · subst hki
      simp only [if_neg hkj, if_pos rfl]
      exact idx_set_self _ _ _ hi
    · rw [idx_set_ne _ _ _ _ (fun h => hki h.symm)]
      simp [hkj, hki]

theorem getD_cons_swap_perm {α : Type} [Inhabited α] (a : α) :
    ∀ (t : List α) (k : Nat), k < t.length →
      List.Perm (t.getD k default :: t.set k a) (a :: t)
  | [], k, h => by simp at h
  | b :: t, 0, _ => by
    simpa using List.Perm.swap a b t
  | b :: t, k + 1, h => by
    have ih := getD_cons_swap_perm a t k (by simpa using h)
    calc
      List.Perm (t.getD k default :: b :: t.set k a)
          (b :: t.getD k default :: t.set k a) := List.Perm.swap _ _ _
      _ = _ := rfl
      List.Perm _ (b :: a :: t) := ih.cons b
      List.Perm _ (a :: b :: t) := List.Perm.swap _ _ _

theorem listSwap_perm {α : Type} [Inhabited α] :
    ∀ (l : List α) (i j : Nat), i < l.length → j < l.length →
      List.Perm (listSwap l i j) l
  | [], _, _, hi, _ => by simp at hi
  | a :: t, 0, 0, _, _ => by
    simp [listSwap, idx, List.Perm.refl]
  | a :: t, 0, j + 1, hi, hj => by
    unfold listSwap
    simp only [List.set_cons_zero, idx, List.getD_cons_succ, List.set_cons_succ,
      List.getD_cons_zero]
    exact getD_cons_swap_perm a t j (by simpa using hj)
  | a :: t, i + 1, 0, hi, hj => by
    unfold listSwap
    simp only [List.set_cons_succ, List.set_cons_zero, idx, List.getD_cons_zero,
      List.getD_cons_succ]
    exact getD_cons_swap_perm a t i (by simpa using hi)
  | a :: t, i + 1, j + 1, hi, hj => by
    have ih := listSwap_perm t i j (by simpa using hi) (by simpa using hj)
    unfold listSwap at ih ⊢
    simpa [idx] using ih.cons a

/-! ## MinHeap: permutation and length facts -/

theorem siftUpGo_perm {α : Type} [LinearOrder α] [Inhabited α] :
    ∀ (fuel : Nat) (buf : List α) (start pos : Nat), pos < buf.length →
      List.Perm (siftUpGo fuel buf start pos) buf
  | 0, buf, _, _, _ => List.Perm.refl buf
  | fuel + 1, buf, start, pos, hpos => by
    unfold siftUpGo
    by_cases hs : start < pos
    · simp only [if_pos hs]
      by_cases hle : idx buf ((pos - 1) / 2) ≤ idx buf pos
      · simp only [if_pos hle]
        exact List.Perm.refl buf
      · simp only [if_neg hle]
        have hpar : (pos - 1) / 2 < buf.length := by omega
        have ih := siftUpGo_perm fuel (listSwap buf pos ((pos - 1) / 2)) start
          ((pos - 1) / 2) (by rw [length_listSwap]; omega)
        exact ih.trans (listSwap_perm buf pos ((pos - 1) / 2) hpos hpar)
    · simp only [if_neg hs]
      exact List.Perm.refl buf

theorem siftDownGo_perm {α : Type} [LinearOrder α] [Inhabited α] :
    ∀ (fuel : Nat) (buf : List α) (en pos : Nat), en ≤ buf.length →
      List.Perm (siftDownGo fuel buf en pos) buf
  | 0, buf, _, _, _ => List.Perm.refl buf
  | fuel + 1, buf, en, pos, hen => by
    unfold siftDownGo
    by_cases hl : en ≤ 2 * pos + 1
    · simp only [if_pos hl]
      exact List.Perm.refl buf
    · simp only [if_neg hl]
      set m1 := if idx buf (2 * pos + 1) ≤ idx buf pos then 2 * pos + 1 else pos
        with hm1
      set m := if 2 * pos + 2 < en ∧ idx buf (2 * pos + 2) ≤ idx buf m1
        then 2 * pos + 2 else m1 with hm
      by_cases hmp : m = pos
      · simp only [if_pos hmp]
        exact List.Perm.refl buf
      · simp only [if_neg hmp]
        have hmlt : m < en := by
          rw [hm]
          split
          · omega
          · rw [hm1]
            split
            · omega
            · omega
        have hplt : pos < en := by omega
        have ih := siftDownGo_perm fuel (listSwap buf m pos) en m
          (by rw [length_listSwap]; exact hen)
        exact ih.trans (listSwap_perm buf m pos (by omega) (by omega))

theorem length_siftUpGo {α : Type} [LinearOrder α] [Inhabited α]
    (fuel : Nat) (buf : List α) (start pos : Nat) (h : pos < buf.length) :
    (siftUpGo fuel buf start pos).length = buf.length :=
  (siftUpGo_perm fuel buf start pos h).length_eq

theorem length_siftDownGo {α : Type} [LinearOrder α] [Inhabited α]
    (fuel : Nat) (buf : List α) (en pos : Nat) (h : en ≤ buf.length) :
    (siftDownGo fuel buf en pos).length = buf.length :=
  (siftDownGo_perm fuel buf en pos h).length_eq

theorem swapRemove0_perm {α : Type} (x : α) (rest : List α) :
    List.Perm (MinHeap.swapRemove0 (x :: rest)) rest := by
  cases rest with
  | nil => simp [MinHeap.swapRemove0]
  | cons b t =>
    unfold MinHeap.swapRemove0
    have h1 := List.perm_append_singleton
      ((b :: t).getLast (List.cons_ne_nil b t)) ((b :: t).dropLast)
    rw [List.dropLast_append_getLast] at h1
    exact h1.symm

theorem length_swapRemove0 {α : Type} (l : List α) :
    (MinHeap.swapRemove0 l).length = l.length - 1 := by
  match l with
  | [] => simp [MinHeap.swapRemove0]
  | [a] => simp [MinHeap.swapRemove0]
  | a :: b :: t =>
    unfold MinHeap.swapRemove0
    simp [List.length_dropLast]

theorem siftUpGo_isHeap {α : Type} [LinearOrder α] [Inhabited α] :
    ∀ (fuel : Nat) (l : List α) (pos : Nat), pos ≤ fuel → pos < l.length →
      SiftUpInv l pos → IsHeap (siftUpGo fuel l 0 pos)
  | 0, l, pos, hfuel, _, hInv => by
    have hpos : pos = 0 := by omega
    subst hpos
    intro i hi0 hilen
    exact hInv.1 i hi0 (by simpa [siftUpGo] using hilen) (by omega)
  | fuel + 1, l, pos, hfuel, hlen, hInv => by
    rcases hInv with ⟨h1, h2⟩
    unfold siftUpGo
    by_cases hs : 0 < pos
    · simp only [if_pos hs]
      have hparlt : (pos - 1) / 2 < pos := by omega
      have hparlen : (pos - 1) / 2 < l.length := by omega
      by_cases hle : idx l ((pos - 1) / 2) ≤ idx l pos
      · simp only [if_pos hle]
        intro i hi0 hilen
        by_cases hip : i = pos
        · subst hip
          exact hle
        · exact h1 i hi0 hilen hip
      · simp only [if_neg hle]
        have hswap : idx l pos < idx l ((pos - 1) / 2) := lt_of_not_le hle
        have hidx := fun k => idx_listSwap l pos ((pos - 1) / 2) k hlen hparlen
        have hlen' : (listSwap l pos ((pos - 1) / 2)).length = l.length :=
          length_listSwap l pos ((pos - 1) / 2)
        have e1 : idx (listSwap l pos ((pos - 1) / 2)) ((pos - 1) / 2)
            = idx l pos := by rw [hidx, if_pos rfl]
        have e2 : idx (listSwap l pos ((pos - 1) / 2)) pos
            = idx l ((pos - 1) / 2) := by
          rw [hidx, if_neg (by omega), if_pos rfl]
        have e3 : ∀ k, k ≠ (pos - 1) / 2 → k ≠ pos →
            idx (listSwap l pos ((pos - 1) / 2)) k = idx l k := by
          intro k hk1 hk2
          rw [hidx, if_neg hk1, if_neg hk2]
        refine siftUpGo_isHeap fuel _ ((pos - 1) / 2) (by omega) (by omega)
          ⟨?_, ?_⟩
        · intro i hi0 hilen hipar
          rw [hlen'] at hilen
          by_cases hip : i = pos
          · subst hip
            rw [e1, e2]
            exact le_of_lt hswap
          · rw [e3 i hipar hip]
            by_cases hpp : (i - 1) / 2 = (pos - 1) / 2
            · rw [hpp, e1]
              have := h1 i hi0 hilen hip
              rw [hpp] at this
              exact le_trans (le_of_lt hswap) this
            · by_cases hppos : (i - 1) / 2 = pos
              · rw [hppos, e2]
                exact h2 i hi0 hilen hppos hs
              · rw [e3 _ hpp hppos]
                exact h1 i hi0 hilen hip
        · intro i hi0 hilen hchild hparpos
          rw [hlen'] at hilen
          rw [e3 (((pos - 1) / 2 - 1) / 2) (by omega) (by omega)]
          by_cases hip : i = pos
          · rw [hip, e2]
            exact h1 ((pos - 1) / 2) hparpos hparlen (by omega)
          · have hipar : i ≠ (pos - 1) / 2 := by omega
            rw [e3 i hipar hip]
            have hpi := h1 i hi0 hilen hip
            rw [hchild] at hpi
            exact le_trans (h1 ((pos - 1) / 2) hparpos hparlen (by omega)) hpi
    · simp only [if_neg hs]
      intro i hi0 hilen
      exact h1 i hi0 hilen (by omega)

theorem siftDown_swap_inv {α : Type} [LinearOrder α] [Inhabited α]
    (l : List α) (pos m : Nat) (hposm : pos < m) (hmlen : m < l.length)
    (hchild : (m - 1) / 2 = pos)
    (hBA : idx l m ≤ idx l pos)
    (hother : ∀ j, 0 < j → j < l.length → (j - 1) / 2 = pos →
      idx l m ≤ idx l j)
    (hInv : SiftDownInv l pos) : SiftDownInv (listSwap l m pos) m := by
  rcases hInv with ⟨h1, h2⟩
  have hposlen : pos < l.length := lt_trans hposm hmlen
  have hidx := fun k => idx_listSwap l m pos k hmlen hposlen
  have e1 : idx (listSwap l m pos) pos = idx l m := by rw [hidx, if_pos rfl]
  have e2 : idx (listSwap l m pos) m = idx l pos := by
    rw [hidx, if_neg (by omega), if_pos rfl]
  have e3 : ∀ k, k ≠ pos → k ≠ m → idx (listSwap l m pos) k = idx l k := by
    intro k hk1 hk2
    rw [hidx, if_neg hk1, if_neg hk2]
  have hlen' : (listSwap l m pos).length = l.length := length_listSwap l m pos
  constructor
  · intro i hi0 hilen hpim
    rw [hlen'] at hilen
    by_cases hipos : i = pos
    · have hpos0 : 0 < pos := by omega
      have hpp : (pos - 1) / 2 ≠ pos := by omega
      have hppm : (pos - 1) / 2 ≠ m := by omega
      rw [hipos, e1, e3 _ (by omega) hppm]
      exact h2 hpos0 m (by omega) hmlen hchild
    · by_cases him : i = m
      · rw [him, e2, hchild, e1]
        exact hBA
      · rw [e3 i hipos him]
        by_cases hpp : (i - 1) / 2 = pos
        · rw [hpp, e1]
          exact hother i hi0 hilen hpp
        · rw [e3 _ hpp hpim]
          exact h1 i hi0 hilen hpp
  · intro hm0 i hi0 hilen hpim
    rw [hlen'] at hilen
    have hichild : m < i := by omega
    rw [hchild, e1, e3 i (by omega) (by omega)]
    have := h1 i hi0 hilen (by omega)
    rwa [hpim] at this

theorem siftDownGo_isHeap {α : Type} [LinearOrder α] [Inhabited α] :
    ∀ (fuel : Nat) (l : List α) (pos : Nat), l.length - pos ≤ fuel →
      SiftDownInv l pos → IsHeap (siftDownGo fuel l l.length pos)
  | 0, l, pos, hfuel, hInv => by
    intro i hi0 hilen
    simp only [siftDownGo] at hilen ⊢
    exact hInv.1 i hi0 hilen (by omega)
  | fuel + 1, l, pos, hfuel, hInv => by
    rcases hInv with ⟨h1, h2⟩
    unfold siftDownGo
    by_cases hl : l.length ≤ 2 * pos + 1
    · simp only [if_pos hl]
      intro i hi0 hilen
      exact h1 i hi0 hilen (by omega)
    · simp only [if_neg hl]
      have hleftlen : 2 * pos + 1 < l.length := by omega
      have hposlen : pos < l.length := by omega
      by_cases hc1 : idx l (2 * pos + 1) ≤ idx l pos
      · simp only [if_pos hc1]
        by_cases hc2 : 2 * pos + 2 < l.length ∧
            idx l (2 * pos + 2) ≤ idx l (2 * pos + 1)
        · simp only [if_pos hc2, if_neg (by omega : ¬2 * pos + 2 = pos)]
          have hrec := siftDownGo_isHeap fuel (listSwap l (2 * pos + 2) pos)
            (2 * pos + 2)
            (by rw [length_listSwap]; omega)
            (siftDown_swap_inv l pos (2 * pos + 2) (by omega) hc2.1
              (by omega) (le_trans hc2.2 hc1)
              (by
                intro j hj0 hjlen hjp
                have : j = 2 * pos + 1 ∨ j = 2 * pos + 2 := by omega
                rcases this with hj | hj
                · rw [hj]; exact hc2.2
                · rw [hj])
              ⟨h1, h2⟩)
          rwa [length_listSwap] at hrec
        · simp only [if_neg hc2, if_neg (by omega : ¬2 * pos + 1 = pos)]
          have hrec := siftDownGo_isHeap fuel (listSwap l (2 * pos + 1) pos)
            (2 * pos + 1)
            (by rw [length_listSwap]; omega)
            (siftDown_swap_inv l pos (2 * pos + 1) (by omega) hleftlen
              (by omega) hc1
              (by
                intro j hj0 hjlen hjp
                have : j = 2 * pos + 1 ∨ j = 2 * pos + 2 := by omega
                rcases this with hj | hj
                · rw [hj]
                · rw [hj]
                  have hr : ¬idx l (2 * pos + 2) ≤ idx l (2 * pos + 1) := by
                    intro hcon
                    exact hc2 ⟨by omega, hcon⟩
                  exact le_of_lt (lt_of_not_le hr))
              ⟨h1, h2⟩)
          rwa [length_listSwap] at hrec
      · simp only [if_neg hc1]
        by_cases hc2 : 2 * pos + 2 < l.length ∧ idx l (2 * pos + 2) ≤ idx l pos
        · simp only [if_pos hc2, if_neg (by omega : ¬2 * pos + 2 = pos)]
          have hrec := siftDownGo_isHeap fuel (listSwap l (2 * pos + 2) pos)
            (2 * pos + 2)
            (by rw [length_listSwap]; omega)
            (siftDown_swap_inv l pos (2 * pos + 2) (by omega) hc2.1
              (by omega) hc2.2
              (by
                intro j hj0 hjlen hjp
                have : j = 2 * pos + 1 ∨ j = 2 * pos + 2 := by omega
                rcases this with hj | hj
                · rw [hj]
                  exact le_trans hc2.2 (le_of_lt (lt_of_not_le hc1))
                · rw [hj])
              ⟨h1, h2⟩)
          rwa [length_listSwap] at hrec
        · simp only [if_neg hc2, if_true]
          intro i hi0 hilen
          by_cases hpp : (i - 1) / 2 = pos
          · have hi12 : i = 2 * pos + 1 ∨ i = 2 * pos + 2 := by omega
            rw [hpp]
            rcases hi12 with hi | hi
            · rw [hi]
              exact le_of_lt (lt_of_not_le hc1)
            · have hrr : ¬idx l (2 * pos + 2) ≤ idx l pos := by
                intro hcon
                exact hc2 ⟨by omega, hcon⟩
              rw [hi]
              exact le_of_lt (lt_of_not_le hrr)
          · exact h1 i hi0 hilen hpp

/-! ## MinHeap: push, pop, and the sorted pop sequence -/

theorem idx_append_left {α : Type} [Inhabited α] (l l2 : List α) (n : Nat)
    (h : n < l.length) : idx (l ++ l2) n = idx l n := by
  rw [idx, List.getD_eq_getElem _ _ (by simp; omega), idx,
    List.getD_eq_getElem _ _ h]
  exact List.getElem_append_left h

theorem idx_dropLast {α : Type} [Inhabited α] (l : List α) (n : Nat)
    (h : n < l.length - 1) : idx l.dropLast n = idx l n := by
  rw [idx, List.getD_eq_getElem _ _ (by simpa using h), idx,
    List.getD_eq_getElem _ _ (by omega)]
  exact List.getElem_dropLast l n _

theorem MinHeap.push_perm {α : Type} [LinearOrder α] [Inhabited α]
    (h : MinHeap α) (v : α) : List.Perm (h.push v).buf (v :: h.buf) := by
  have h1 : List.Perm (MinHeap.push h v).buf (h.buf ++ [v]) :=
    siftUpGo_perm _ _ _ _ (by simp)
  exact h1.trans (List.perm_append_singleton v h.buf)

theorem MinHeap.push_isHeap {α : Type} [LinearOrder α] [Inhabited α]
    (h : MinHeap α) (v : α) (hH : IsHeap h.buf) : IsHeap (h.push v).buf := by
  refine siftUpGo_isHeap h.buf.length (h.buf ++ [v]) h.buf.length le_rfl
    (by simp) ⟨?_, ?_⟩
  · intro i hi0 hilen hip
    have hi : i < h.buf.length := by
      simp at hilen
      omega
    have hp : (i - 1) / 2 < h.buf.length := by omega
    rw [idx_append_left _ _ _ hi, idx_append_left _ _ _ hp]
    exact hH i hi0 hi
  · intro i hi0 hilen hchild hpos0
    have hi : i < h.buf.length + 1 := by simpa using hilen
    omega

theorem isHeap_root_le {α : Type} [LinearOrder α] [Inhabited α]
    (l : List α) (hH : IsHeap l) : ∀ i, i < l.length → idx l 0 ≤ idx l i := by
  intro i
  induction i using Nat.strong_induction_on with
  | _ i ih =>
    intro hlen
    rcases Nat.eq_zero_or_pos i with h0 | h0
    · rw [h0]
    · exact le_trans (ih ((i - 1) / 2) (by omega) (by omega)) (hH i h0 hlen)

theorem isHeap_root_le_mem {α : Type} [LinearOrder α] [Inhabited α]
    (l : List α) (hH : IsHeap l) : ∀ y ∈ l, idx l 0 ≤ y := by
  intro y hy
  rcases List.mem_iff_getElem.mp hy with ⟨i, hl, hi⟩
  have : idx l i = y := by
    rw [idx, List.getD_eq_getElem _ _ hl, hi]
  rw [← this]
  exact isHeap_root_le l hH i hl

theorem MinHeap.pop_spec {α : Type} [LinearOrder α] [Inhabited α]
    (h : MinHeap α) (x : α) (t : List α) (hbuf : h.buf = x :: t)
    (hH : IsHeap h.buf) :
    ∃ h' : MinHeap α, h.pop = some (x, h') ∧ List.Perm h'.buf t ∧
      IsHeap h'.buf ∧ ∀ y ∈ h.buf, x ≤ y := by
  have hlen' : (MinHeap.swapRemove0 (x :: t)).length = t.length := by
    rw [length_swapRemove0]
    simp
  refine ⟨⟨siftDown (MinHeap.swapRemove0 (x :: t)) ((x :: t).length - 1) 0⟩,
    ?_, ?_, ?_, ?_⟩
  · unfold MinHeap.pop
    rw [hbuf]
  · have hp1 : List.Perm
        (siftDown (MinHeap.swapRemove0 (x :: t)) ((x :: t).length - 1) 0)
        (MinHeap.swapRemove0 (x :: t)) := by
      unfold siftDown
      exact siftDownGo_perm _ _ _ _ (by rw [hlen']; simp)
    exact hp1.trans (swapRemove0_perm x t)
  · show IsHeap (siftDown (MinHeap.swapRemove0 (x :: t)) ((x :: t).length - 1) 0)
    have hen : (x :: t).length - 1 = (MinHeap.swapRemove0 (x :: t)).length := by
      rw [hlen']
      simp
    rw [hen]
    unfold siftDown
    refine siftDownGo_isHeap _ _ 0 le_rfl ⟨?_, ?_⟩
    · intro i hi0 hilen hip
      have hpos : 0 < (i - 1) / 2 := by omega
      have hiorig : i < t.length := by omega
      have hidx_i : idx (MinHeap.swapRemove0 (x :: t)) i = idx (x :: t) i := by
        cases t with
        | nil => simp at hiorig
        | cons b r =>
          show idx ((b :: r).getLast (List.cons_ne_nil b r)
            :: (b :: r).dropLast) i = idx (x :: b :: r) i
          rcases Nat.exists_eq_add_of_lt hi0 with ⟨i', hi'⟩
          have hieq : i = i' + 1 := by omega
          rw [hieq]
          show idx ((b :: r).dropLast) i' = idx (b :: r) i'
          exact idx_dropLast (b :: r) i' (by
            rw [hieq] at hiorig
            simp at hiorig ⊢
            omega)
      have hidx_p : idx (MinHeap.swapRemove0 (x :: t)) ((i - 1) / 2)
          = idx (x :: t) ((i - 1) / 2) := by
        cases t with
        | nil => simp at hiorig
        | cons b r =>
          show idx ((b :: r).getLast (List.cons_ne_nil b r)
            :: (b :: r).dropLast) ((i - 1) / 2) = idx (x :: b :: r) ((i - 1) / 2)
          rcases Nat.exists_eq_add_of_lt hpos with ⟨p', hp'⟩
          have hpeq : (i - 1) / 2 = p' + 1 := by omega
          rw [hpeq]
          show idx ((b :: r).dropLast) p' = idx (b :: r) p'
          exact idx_dropLast (b :: r) p' (by
            simp only [List.length_cons] at hiorig ⊢
            omega)
      rw [hidx_i, hidx_p]
      have := hH i hi0 (by rw [hbuf]; simp; omega)
      rw [hbuf] at this
      exact this
    · intro h0
      exact absurd h0 (by omega)
  · intro y hy
    have hroot : idx h.buf 0 = x := by rw [hbuf, idx, List.getD_cons_zero]
    rw [← hroot]
    exact isHeap_root_le_mem h.buf hH y hy

theorem intoIterSortedGo_spec {α : Type} [LinearOrder α] [Inhabited α] :
    ∀ (fuel : Nat) (h : MinHeap α), h.buf.length ≤ fuel → IsHeap h.buf →
      List.Perm (MinHeap.intoIterSortedGo fuel h) h.buf ∧
        (MinHeap.intoIterSortedGo fuel h).Sorted (· ≤ ·)
  | 0, h, hfuel, _ => by
    have hbuf : h.buf = [] := List.eq_nil_of_length_eq_zero (by omega)
    rw [MinHeap.intoIterSortedGo]
    exact ⟨by rw [hbuf], List.sorted_nil⟩
  | fuel + 1, h, hfuel, hH => by
    rcases hbuf : h.buf with _ | ⟨x, t⟩
    · have hpop : h.pop = none := by
        unfold MinHeap.pop
        rw [hbuf]
      constructor
      · rw [MinHeap.intoIterSortedGo, hpop]
      · rw [MinHeap.intoIterSortedGo, hpop]
        exact List.sorted_nil
    · rcases MinHeap.pop_spec h x t hbuf hH with ⟨h', hpop, hperm, hH', hmin⟩
      have hlen' : h'.buf.length ≤ fuel := by
        rw [hperm.length_eq]
        rw [hbuf] at hfuel
        simp at hfuel
        omega
      rcases intoIterSortedGo_spec fuel h' hlen' hH' with ⟨ihp, ihs⟩
      constructor
      · rw [MinHeap.intoIterSortedGo, hpop]
        show List.Perm (x :: MinHeap.intoIterSortedGo fuel h') (x :: t)
        exact (ihp.trans hperm).cons x
      · rw [MinHeap.intoIterSortedGo, hpop]
        show (x :: MinHeap.intoIterSortedGo fuel h').Sorted (· ≤ ·)
        refine List.sorted_cons.mpr ⟨?_, ihs⟩
        intro b hb
        have hb2 : b ∈ h.buf := by
          rw [hbuf]
          exact List.mem_cons_of_mem x (hperm.mem_iff.mp (ihp.mem_iff.mp hb))
        exact hmin b hb2

theorem foldl_push_spec {α : Type} [LinearOrder α] [Inhabited α] :
    ∀ (l : List α) (h : MinHeap α), IsHeap h.buf →
      IsHeap (l.foldl MinHeap.push h).buf ∧
        List.Perm (l.foldl MinHeap.push h).buf (l ++ h.buf)
  | [], h, hH => ⟨hH, by simp [List.Perm.refl]⟩
  | a :: l, h, hH => by
    rcases foldl_push_spec l (h.push a) (MinHeap.push_isHeap h a hH) with
      ⟨ih1, ih2⟩
    refine ⟨ih1, ?_⟩
    show List.Perm (List.foldl MinHeap.push (MinHeap.push h a) l).buf
      (a :: (l ++ h.buf))
    exact ih2.trans ((List.Perm.append_left l (MinHeap.push_perm h a)).trans
      List.perm_middle)

/-- C5: for every sequence of items with pairwise-distinct keys pushed onto
an initially empty `MinHeap`, the sequence of successive pops is exactly the
keys sorted in ascending order: every pop returns the minimum of the
remaining elements, with `push` restoring the invariant by a sift-up from
the tail and `pop` by swap-removing the root and sifting down. -/
theorem minheap_pop_sequence_sorted {α : Type} [LinearOrder α] [Inhabited α]
    (l : List α) (_hnd : l.Nodup) :
    MinHeap.intoIterSorted (pushAll l) = List.insertionSort (· ≤ ·) l := by
  rcases foldl_push_spec l MinHeap.new
    (by intro i hi0 hilen; simp [MinHeap.new] at hilen) with ⟨hheap, hperm⟩
  have hperm2 : List.Perm (pushAll l).buf l := by
    simpa [pushAll, MinHeap.new] using hperm
  rcases intoIterSortedGo_spec (pushAll l).buf.length (pushAll l) le_rfl hheap
    with ⟨hp, hs⟩
  refine List.eq_of_perm_of_sorted ?_ hs (List.sorted_insertionSort _ l)
  exact (hp.trans hperm2).trans (List.perm_insertionSort _ l).symm

/-- Witness for C5 at a concrete input with distinct keys. -/
theorem minheap_pop_sequence_sorted_witness :
    ([12, 3, 25, 7, 9, 1] : List Nat).Nodup ∧
      MinHeap.intoIterSorted (pushAll [12, 3, 25, 7, 9, 1])
        = List.insertionSort (· ≤ ·) [12, 3, 25, 7, 9, 1] :=
  ⟨by decide, minheap_pop_sequence_sorted [12, 3, 25, 7, 9, 1] (by decide)⟩

theorem u128AsI32_neg_iff (n : Nat) :
    u128AsI32 n < 0 ↔ 2147483648 ≤ n % 4294967296 := by
  unfold u128AsI32
  by_cases hc : n % 4294967296 < 2147483648
  · rw [if_pos hc]
    omega
  · rw [if_neg hc]
    omega

/-- C2: evaluation of the timeout computation at an already-expired nearest
deadline.  With a timer whose deadline is 1 ms in the past the code computes
`-1` (block indefinitely), not `0` as the specification requires; with a
deadline exactly equal to `now` it computes `0`; with an empty heap it
computes `-1`. -/
theorem computeTimeout_expired_gives_minus_one :
    computeTimeout ⟨[toLex (0, 0)]⟩ 1000000 = -1 ∧
      computeTimeout ⟨[toLex (1000000, 5)]⟩ 1000000 = 0 ∧
      computeTimeout MinHeap.new 1000000 = -1 ∧ (-1 : Int) ≠ 0 := by
  refine ⟨?_, ?_, ?_, by decide⟩ <;> rfl

/-- C10 (counterexample): the claim says every nearest deadline at least
2^31 ms in the future yields a negative timeout.  A deadline exactly 2^32 ms
ahead is at least 2^31 ms ahead, yet the wrapped cast gives timeout `0`. -/
theorem computeTimeout_wrap_counterexample :
    2147483648 ≤ durationAsMillis (4294967296000000 - 0) ∧
      computeTimeout ⟨[toLex (4294967296000000, 0)]⟩ 0 = 0 := by
  constructor
  · decide
  · rfl

/-- C10 (amended): the timeout handed to the driver is the millisecond
distance to the nearest deadline, truncated to whole milliseconds and cast
`u128 as i32` (reduction mod 2^32 read as two's complement); it is negative
exactly when that millisecond distance reduced mod 2^32 is at least 2^31.
In particular deadlines between 2^31 and 2^32 - 1 ms ahead give a negative
timeout, which `epoll_wait` treats as indefinite. -/
theorem computeTimeout_wrap_neg_iff (d now id : Nat) (h : now ≤ d) :
    (computeTimeout ⟨[toLex (d, id)]⟩ now < 0 ↔
      2147483648 ≤ durationAsMillis (d - now) % 4294967296) := by
  have heval : computeTimeout ⟨[toLex (d, id)]⟩ now
      = u128AsI32 (durationAsMillis (d - now)) := by
    simp [computeTimeout, MinHeap.peek, TimerKey.wakeAt, checkedDurationSince,
      h]
  rw [heval]
  exact u128AsI32_neg_iff _

/-- Witness for C10 (amended) at a concrete deadline 1 ms ahead. -/
theorem computeTimeout_wrap_neg_iff_witness :
    (0 : Nat) ≤ 1000000 ∧
      (computeTimeout ⟨[toLex (1000000, 7)]⟩ 0 < 0 ↔
        2147483648 ≤ durationAsMillis (1000000 - 0) % 4294967296) :=
  ⟨by decide, computeTimeout_wrap_neg_iff 1000000 0 7 (by decide)⟩

/-- C3: the four waker vtable operations obey the reference-count
discipline on the shared `WakerData` cell: `clone` increments the count by
one, `wake` decrements it by one (consuming the reference), `wake_by_ref`
leaves it unchanged, and `drop` decrements it by one, freeing the cell
exactly when the count reaches zero. -/
theorem waker_vtable_refcount (c : RcCell) (t : RTask) (s : SchedState)
    (hvalid : 1 ≤ c.strong) (hlive : c.live = true) :
    (vtClone c).strong = c.strong + 1 ∧ (vtClone c).live = true ∧
      (vtWake c t s).1.strong = c.strong - 1 ∧
      ((vtWake c t s).1.live = false ↔ c.strong = 1) ∧
      (vtWakeByRef c t s).1 = c ∧
      (vtDrop c).strong = c.strong - 1 ∧
      ((vtDrop c).live = false ↔ c.strong = 1) := by
  unfold vtClone vtWake vtWakeByRef vtDrop rcFromRaw rcClone rcForget
    rcIntoRaw rcDropOwned
  by_cases hone : c.strong ≤ 1
  · have h1 : c.strong = 1 := by omega
    simp [h1, hlive]
  · have h1 : c.strong ≠ 1 := by omega
    simp [if_neg hone, h1, hlive]

/-- Witness for C3 at a cell with two outstanding references. -/
theorem waker_vtable_refcount_witness :
    (1 ≤ (2 : Nat) ∧ (true : Bool) = true) ∧
      ((vtClone ⟨2, true⟩).strong = 2 + 1 ∧ (vtClone ⟨2, true⟩).live = true ∧
        (vtWake ⟨2, true⟩ ⟨0, false, []⟩ ⟨[], [], [], MinHeap.new, ⟨[], []⟩⟩).1.strong = 2 - 1 ∧
        ((vtWake ⟨2, true⟩ ⟨0, false, []⟩ ⟨[], [], [], MinHeap.new, ⟨[], []⟩⟩).1.live = false ↔ (2 : Nat) = 1) ∧
        (vtWakeByRef ⟨2, true⟩ ⟨0, false, []⟩ ⟨[], [], [], MinHeap.new, ⟨[], []⟩⟩).1 = ⟨2, true⟩ ∧
        (vtDrop ⟨2, true⟩).strong = 2 - 1 ∧
        ((vtDrop ⟨2, true⟩).live = false ↔ (2 : Nat) = 1)) :=
  ⟨⟨by decide, rfl⟩,
    waker_vtable_refcount ⟨2, true⟩ ⟨0, false, []⟩
      ⟨[], [], [], MinHeap.new, ⟨[], []⟩⟩ (by decide) rfl⟩

/-! ## Association-list map lemmas -/

theorem mapLookup_eq_none_iff {κ β : Type} [DecidableEq κ] :
    ∀ (m : List (κ × β)) (k : κ),
      mapLookup m k = none ↔ ∀ p ∈ m, p.1 ≠ k
  | [], k => by simp [mapLookup]
  | (k', v') :: rest, k => by
    by_cases hk : k' = k
    · simp [mapLookup, hk]
    · simp only [mapLookup, if_neg hk, mapLookup_eq_none_iff rest k,
        List.mem_cons]
      constructor
      · intro h p hp
        rcases hp with hp | hp
        · rw [hp]
          exact hk
        · exact h p hp
      · intro h p hp
        exact h p (Or.inr hp)

theorem mapLookup_mapInsert_self {κ β : Type} [DecidableEq κ] :
    ∀ (m : List (κ × β)) (k : κ) (v : β),
      mapLookup (mapInsert m k v) k = some v
  | [], k, v => by simp [mapInsert, mapLookup]
  | (k', v') :: rest, k, v => by
    by_cases hk : k' = k
    · simp [mapInsert, hk, mapLookup]
    · simp only [mapInsert, if_neg hk, mapLookup]
      exact mapLookup_mapInsert_self rest k v

theorem mapLookup_mapInsert_ne {κ β : Type} [DecidableEq κ] :
    ∀ (m : List (κ × β)) (k k' : κ) (v : β), k ≠ k' →
      mapLookup (mapInsert m k v) k' = mapLookup m k'
  | [], k, k', v, hne => by simp [mapInsert, mapLookup, hne]
  | (k0, v0) :: rest, k, k', v, hne => by
    by_cases hk : k0 = k
    · simp only [mapInsert, if_pos hk, mapLookup]
      rw [if_neg hne, if_neg (by rw [hk]; exact hne)]
    · simp only [mapInsert, if_neg hk, mapLookup]
      by_cases hk0 : k0 = k'
      · rw [if_pos hk0, if_pos hk0]
      · rw [if_neg hk0, if_neg hk0]
        exact mapLookup_mapInsert_ne rest k k' v hne

theorem mapLookup_mapRemove_self {κ β : Type} [DecidableEq κ]
    (m : List (κ × β)) (k : κ) : mapLookup (mapRemove m k) k = none := by
  rw [mapLookup_eq_none_iff]
  intro p hp
  have := List.of_mem_filter hp
  simpa using this

theorem mapLookup_mapRemove_ne {κ β : Type} [DecidableEq κ] :
    ∀ (m : List (κ × β)) (k k' : κ), k ≠ k' →
      mapLookup (mapRemove m k) k' = mapLookup m k'
  | [], k, k', hne => rfl
  | (k0, v0) :: rest, k, k', hne => by
    have ih := mapLookup_mapRemove_ne rest k k' hne
    by_cases hk : k0 = k
    · have hk0ne : k0 ≠ k' := by
        rw [hk]
        exact hne
      simp only [mapRemove, List.filter_cons]
      rw [if_neg (by simp [hk])]
      simp only [mapRemove] at ih
      rw [ih]
      simp [mapLookup, hk0ne]
    · simp only [mapRemove, List.filter_cons]
      rw [if_pos (by simp [hk])]
      simp only [mapLookup]
      simp only [mapRemove] at ih
      rw [ih]

theorem mapRemove_mapInsert_absent {κ β : Type} [DecidableEq κ] :
    ∀ (m : List (κ × β)) (k : κ) (v : β), mapLookup m k = none →
      mapRemove (mapInsert m k v) k = m
  | [], k, v, _ => by simp [mapInsert, mapRemove]
  | (k', v') :: rest, k, v, h => by
    simp only [mapLookup] at h
    by_cases hk : k' = k
    · rw [if_pos hk] at h
      exact absurd h (by simp)
    · rw [if_neg hk] at h
      simp only [mapInsert, if_neg hk, mapRemove, List.filter_cons]
      rw [if_pos (by simp [hk])]
      have ih := mapRemove_mapInsert_absent rest k v h
      simp only [mapRemove] at ih
      rw [ih]

/-- C7 (counterexample): on a driver whose interest list and `registered`
map already hold fd 3 (mask 1, waker token 7), `register(3, 1, 9)` does not
store waker 9 (the `EEXIST` upgrade path returns before the insert), and
`register` followed by `unregister` empties `registered` instead of
restoring its pre-call value `[(3, 7)]`. -/
theorem driver_register_roundtrip_counterexample :
    (Driver.register ⟨[(3, 1)], [(3, 7)]⟩ 3 1 9).registered = [(3, 7)] ∧
      mapLookup (Driver.register ⟨[(3, 1)], [(3, 7)]⟩ 3 1 9).registered 3
        ≠ some 9 ∧
      Driver.registered
        (Driver.unregister (Driver.register ⟨[(3, 1)], [(3, 7)]⟩ 3 1 9) 3).1
        = [] ∧
      (⟨[(3, 1)], [(3, 7)]⟩ : Driver).registered ≠ [] := by
  refine ⟨rfl, by decide, rfl, by decide⟩

/-- C7 (amended): when the fd is not already registered, `register`
followed by `unregister` restores the whole driver state; when the fd is
already in the interest list, `register` upgrades the add to a `modify`
and leaves the `registered` map unchanged, so the new waker is not stored
and the subsequent `unregister` removes the pre-existing entry. -/
theorem driver_register_unregister_roundtrip (d : Driver) (fd : Int)
    (m w : Nat) (hi : mapLookup d.interest fd = none)
    (hr : mapLookup d.registered fd = none) :
    (Driver.unregister (Driver.register d fd m w) fd).1 = d ∧
      ∀ d' : Driver, (mapLookup d'.interest fd).isSome = true →
        (Driver.register d' fd m w).registered = d'.registered := by
  constructor
  · unfold Driver.register
    rw [if_neg (by rw [hi]; simp)]
    unfold Driver.unregister
    cases d with
    | mk di dr =>
      simp only [Driver.mk.injEq]
      exact ⟨mapRemove_mapInsert_absent di fd m hi,
        mapRemove_mapInsert_absent dr fd w hr⟩
  · intro d' hd'
    unfold Driver.register Driver.modify
    rw [if_pos hd']
    by_cases hmod : (mapLookup d'.interest fd).isSome
    · rw [if_pos hmod]
    · rw [if_neg hmod]

/-- Witness for C7 (amended) on an initially empty driver. -/
theorem driver_register_unregister_roundtrip_witness :
    (mapLookup (⟨[], []⟩ : Driver).interest 3 = none ∧
        mapLookup (⟨[], []⟩ : Driver).registered 3 = none) ∧
      ((Driver.unregister (Driver.register ⟨[], []⟩ 3 1 9) 3).1 = ⟨[], []⟩ ∧
        ∀ d' : Driver, (mapLookup d'.interest 3).isSome = true →
          (Driver.register d' 3 1 9).registered = d'.registered) :=
  ⟨⟨rfl, rfl⟩, driver_register_unregister_roundtrip ⟨[], []⟩ 3 1 9 rfl rfl⟩

/-- C8: polling a `Sleep` resolves immediately whenever `now ≥ deadline`;
otherwise the first poll registers the polling task with the timer wheel at
the stored deadline, sets the `registered` flag, and returns pending; every
subsequent poll re-checks the deadline but performs no further
registration, leaving the timer heap untouched. -/
theorem sleep_poll_spec (sl : Sleep) (now curTask : Nat)
    (timers : MinHeap TimerKey) :
    (sl.wake_at ≤ now →
      sleepPoll sl now curTask timers = (.ready, sl, timers)) ∧
      (now < sl.wake_at → sl.registered = false →
        sleepPoll sl now curTask timers =
            (.pending, {sl with registered := true},
              MinHeap.push timers (toLex (sl.wake_at, curTask))) ∧
          List.Perm (sleepPoll sl now curTask timers).2.2.buf
            (toLex (sl.wake_at, curTask) :: timers.buf)) ∧
      (now < sl.wake_at → sl.registered = true →
        sleepPoll sl now curTask timers = (.pending, sl, timers)) := by
  refine ⟨?_, ?_, ?_⟩
  · intro hle
    unfold sleepPoll
    rw [if_pos hle]
  · intro hlt hreg
    have heq : sleepPoll sl now curTask timers =
        (.pending, {sl with registered := true},
          MinHeap.push timers (toLex (sl.wake_at, curTask))) := by
      unfold sleepPoll
      rw [if_neg (by omega), hreg]
      rfl
    refine ⟨heq, ?_⟩
    rw [heq]
    exact MinHeap.push_perm timers (toLex (sl.wake_at, curTask))
  · intro hlt hreg
    unfold sleepPoll
    rw [if_neg (by omega), hreg]
    rfl

/-- Witness for C8 at deadline 5: an elapsed poll resolves; a first early
poll registers and sets the flag; a later early poll leaves the heap
alone. -/
theorem sleep_poll_spec_witness :
    sleepPoll ⟨5, false⟩ 7 1 MinHeap.new = (.ready, ⟨5, false⟩, MinHeap.new) ∧
      sleepPoll ⟨5, false⟩ 3 1 MinHeap.new
        = (.pending, ⟨5, true⟩, MinHeap.push MinHeap.new (toLex (5, 1))) ∧
      sleepPoll ⟨5, true⟩ 3 1 MinHeap.new = (.pending, ⟨5, true⟩, MinHeap.new) :=
  ⟨(sleep_poll_spec ⟨5, false⟩ 7 1 MinHeap.new).1 (by decide),
    ((sleep_poll_spec ⟨5, false⟩ 3 1 MinHeap.new).2.1 (by decide) rfl).1,
    (sleep_poll_spec ⟨5, true⟩ 3 1 MinHeap.new).2.2 (by decide) rfl⟩

/-- C1 (counterexample): immediately after the `block_on_task` seed the
root id sits in `ready` while its `scheduled` flag is still false, so the
flag is not equivalent to ready-queue membership; and when one task
registers two timers in one poll (two `Sleep`s polled by the same future)
and both expire, `process_timers` enqueues the id twice, so at the instant
between timer processing and the drain of that tick the id occurs twice in
the ready queue. -/
theorem scheduled_flag_ready_counterexample :
    (blockOnSeed ⟨0, false, [([Effect.regTimer 1, Effect.regTimer 1], true)]⟩
        ⟨[], [], [], MinHeap.new, ⟨[], []⟩⟩).ready = [0] ∧
      mapLookup (blockOnSeed
          ⟨0, false, [([Effect.regTimer 1, Effect.regTimer 1], true)]⟩
          ⟨[], [], [], MinHeap.new, ⟨[], []⟩⟩).tasks 0
        = some ⟨0, false, [([Effect.regTimer 1, Effect.regTimer 1], true)]⟩ ∧
      (processTimersS 2 (processPending (tick 0 (blockOnSeed
          ⟨0, false, [([Effect.regTimer 1, Effect.regTimer 1], true)]⟩
          ⟨[], [], [], MinHeap.new, ⟨[], []⟩⟩)).1)).ready = [0, 0] := by
  decide

/-- C1 (amended): only the waker paths maintain the flag discipline.
`wake`/`wake_by_ref` enqueue the id exactly when the `scheduled` flag is
false and set it, so they preserve the invariant that the flag mirrors
ready-queue membership with at most one occurrence, and they touch no other
scheduler field; `schedule_task` itself (used directly by the seed,
`process_pending`, `process_timers`, and the driver callback) appends
unconditionally without updating any flag. -/
theorem wake_preserves_ready_invariant (t : RTask) (s : SchedState)
    (hiff : t.scheduled = true ↔ t.id ∈ s.ready)
    (hcount : s.ready.count t.id ≤ 1) :
    ((wakeSchedule t s).1.scheduled = true ↔
        (wakeSchedule t s).1.id ∈ (wakeSchedule t s).2.ready) ∧
      (wakeSchedule t s).2.ready.count (wakeSchedule t s).1.id ≤ 1 ∧
      (wakeSchedule t s).2.tasks = s.tasks ∧
      (wakeSchedule t s).2.pending = s.pending ∧
      (wakeSchedule t s).2.timers = s.timers ∧
      ∀ i, (scheduleTask s i).ready = s.ready ++ [i] := by
  unfold wakeSchedule scheduleTask
  by_cases hflag : t.scheduled = true
  · rw [if_pos hflag]
    exact ⟨hiff, hcount, rfl, rfl, rfl, fun i => rfl⟩
  · have hnotmem : t.id ∉ s.ready := fun hmem => hflag (hiff.mpr hmem)
    rw [if_neg hflag]
    refine ⟨by simp, ?_, rfl, rfl, rfl, fun i => rfl⟩
    simp only [List.count_append]
    rw [List.count_eq_zero_of_not_mem hnotmem]
    simp

/-- Witness for C1 (amended) on a task with a clear flag and an empty
queue. -/
theorem wake_preserves_ready_invariant_witness :
    ((true : Bool) = true ↔ (7 : Nat) ∈ [7]) ∧
      List.count 7 [7] ≤ 1 ∧
      ([] : List (Nat × RTask)) = [] ∧
      ([] : List RTask) = [] ∧
      (MinHeap.new : MinHeap TimerKey) = MinHeap.new ∧
      ∀ i, (scheduleTask ⟨[], [], [], MinHeap.new, ⟨[], []⟩⟩ i).ready
        = [] ++ [i] :=
  wake_preserves_ready_invariant ⟨7, false, []⟩
    ⟨[], [], [], MinHeap.new, ⟨[], []⟩⟩ (by decide) (by decide)

/-- C4 (counterexample): a task that wakes itself during its poll and
returns pending is polled a second time within the same `tick` invocation:
the poll log of one tick shows task 0 polled twice, and because its second
poll resolves it, the task table is empty after that single tick (the
claim would instead leave it in `tasks` awaiting a later tick). -/
theorem tick_repoll_counterexample :
    (tick 0 ⟨[(0, ⟨0, true, [([Effect.wakeSelf], true), ([], false)]⟩)], [0],
        [], MinHeap.new, ⟨[], []⟩⟩).2 = [0, 0] ∧
      (tick 0 ⟨[(0, ⟨0, true, [([Effect.wakeSelf], true), ([], false)]⟩)], [0],
        [], MinHeap.new, ⟨[], []⟩⟩).1.tasks = [] := by
  decide

/-- C9: invoking a stale waker is harmless.  Waking a task cell whose flag
is clear enqueues its id on `ready` and changes nothing else; and when the
drain loop pops an id with no entry in `tasks`, it discards it and
continues, the drain result being identical to draining without that id —
the task table, pending buffer, timers, and driver are untouched by the
stale id's processing. -/
theorem stale_waker_discarded (t : RTask) (s : SchedState)
    (hflag : t.scheduled = false) :
    (wakeSchedule t s).2 = {s with ready := s.ready ++ [t.id]} ∧
      (wakeSchedule t s).1 = {t with scheduled := true} ∧
      ∀ (s' : SchedState) (i : Nat) (rest : List Nat),
        s'.ready = i :: rest → mapLookup s'.tasks i = none →
        drainReady s' = drainReady {s' with ready := rest} := by
  refine ⟨?_, ?_, ?_⟩
  · unfold wakeSchedule
    rw [if_neg (by rw [hflag]; exact Bool.false_ne_true)]
    rfl
  · unfold wakeSchedule
    rw [if_neg (by rw [hflag]; exact Bool.false_ne_true)]
  · intro s' i rest hready hlookup
    have hm : pollMeasure s' = pollMeasure {s' with ready := rest} + 1 := by
      unfold pollMeasure
      rw [hready]
      simp
      omega
    unfold drainReady
    rw [hm]
    simp only [drainGo, hready, hlookup]

/-- Witness for C9: waking a detached task cell with id 3, and draining a
queue holding only the stale id 5. -/
theorem stale_waker_discarded_witness :
    (wakeSchedule ⟨3, false, []⟩ ⟨[], [], [], MinHeap.new, ⟨[], []⟩⟩).2
        = ⟨[], [] ++ [3], [], MinHeap.new, ⟨[], []⟩⟩ ∧
      (wakeSchedule ⟨3, false, []⟩ ⟨[], [], [], MinHeap.new, ⟨[], []⟩⟩).1
        = ⟨3, true, []⟩ ∧
      drainReady ⟨[], [5], [], MinHeap.new, ⟨[], []⟩⟩
        = drainReady ⟨[], [], [], MinHeap.new, ⟨[], []⟩⟩ :=
  ⟨(stale_waker_discarded ⟨3, false, []⟩
      ⟨[], [], [], MinHeap.new, ⟨[], []⟩⟩ rfl).1,
    (stale_waker_discarded ⟨3, false, []⟩
      ⟨[], [], [], MinHeap.new, ⟨[], []⟩⟩ rfl).2.1,
    (stale_waker_discarded ⟨3, false, []⟩
      ⟨[], [], [], MinHeap.new, ⟨[], []⟩⟩ rfl).2.2
      ⟨[], [5], [], MinHeap.new, ⟨[], []⟩⟩ 5 [] rfl rfl⟩

/-! ## Drain-loop bookkeeping lemmas -/

theorem sum_map_filter_le {A : Type} (f : A → Nat) (p : A → Bool) :
    ∀ m : List A, ((m.filter p).map f).sum ≤ (m.map f).sum
  | [] => le_rfl
  | a :: rest => by
    simp only [List.filter_cons]
    by_cases hp : p a
    · rw [if_pos hp]
      simp only [List.map_cons, List.sum_cons]
      exact Nat.add_le_add_left (sum_map_filter_le f p rest) _
    · rw [if_neg hp]
      simp only [List.map_cons, List.sum_cons]
      exact le_trans (sum_map_filter_le f p rest) (by omega)

theorem mapLookup_some_mem {κ β : Type} [DecidableEq κ] :
    ∀ (m : List (κ × β)) (k : κ) (v : β), mapLookup m k = some v →
      (k, v) ∈ m
  | [], k, v, h => by simp [mapLookup] at h
  | (k', v') :: rest, k, v, h => by
    simp only [mapLookup] at h
    by_cases hk : k' = k
    · rw [if_pos hk] at h
      rw [hk] at *
      rw [Option.some_inj] at h
      rw [h] at *
      exact List.mem_cons_self _ _
    · rw [if_neg hk] at h
      exact List.mem_cons_of_mem _ (mapLookup_some_mem rest k v h)

theorem sum_mapRemove_add_le {κ : Type} [DecidableEq κ]
    (f : κ × RTask → Nat) :
    ∀ (m : List (κ × RTask)) (k : κ) (t : RTask), mapLookup m k = some t →
      ((mapRemove m k).map f).sum + f (k, t) ≤ (m.map f).sum
  | [], k, t, h => by simp [mapLookup] at h
  | (k', v') :: rest, k, t, h => by
    simp only [mapLookup] at h
    by_cases hk : k' = k
    · rw [if_pos hk] at h
      rw [Option.some_inj] at h
      simp only [mapRemove, List.filter_cons, hk, h]
      rw [if_neg (by simp)]
      simp only [List.map_cons, List.sum_cons]
      have := sum_map_filter_le f (fun p => decide (p.1 ≠ k)) rest
      simp only [mapRemove] at this ⊢
      omega
    · rw [if_neg hk] at h
      simp only [mapRemove, List.filter_cons]
      rw [if_pos (by simpa using hk)]
      simp only [List.map_cons, List.sum_cons]
      have := sum_mapRemove_add_le f rest k t h
      simp only [mapRemove] at this
      omega

theorem sum_mapInsert_absent {κ : Type} [DecidableEq κ]
    (f : κ × RTask → Nat) :
    ∀ (m : List (κ × RTask)) (k : κ) (t : RTask), mapLookup m k = none →
      ((mapInsert m k t).map f).sum = (m.map f).sum + f (k, t)
  | [], k, t, _ => by simp [mapInsert]
  | (k', v') :: rest, k, t, h => by
    simp only [mapLookup] at h
    by_cases hk : k' = k
    · rw [if_pos hk] at h
      exact absurd h (by simp)
    · rw [if_neg hk] at h
      simp only [mapInsert, if_neg hk, List.map_cons, List.sum_cons]
      rw [sum_mapInsert_absent f rest k t h]
      omega

theorem applyEffects_spec :
    ∀ (effs : List Effect) (t : RTask) (s : SchedState),
      (applyEffects t s effs).1.id = t.id ∧
        (applyEffects t s effs).1.prog = t.prog ∧
        (applyEffects t s effs).1.scheduled
          = (t.scheduled || decide (Effect.wakeSelf ∈ effs)) ∧
        (applyEffects t s effs).2.tasks = s.tasks ∧
        (applyEffects t s effs).2.pending = s.pending ∧
        (applyEffects t s effs).2.driver = s.driver ∧
        (applyEffects t s effs).2.ready = s.ready ++
          (if t.scheduled = false ∧ Effect.wakeSelf ∈ effs then [t.id]
            else [])
  | [], t, s => by
    simp [applyEffects]
  | e :: rest, t, s => by
    have hstep : applyEffects t s (e :: rest)
        = applyEffects (applyEffect t s e).1 (applyEffect t s e).2 rest := rfl
    rcases e with _ | d
    · rcases hflag : t.scheduled with _ | _
      · have happ : applyEffect t s Effect.wakeSelf
            = ({t with scheduled := true},
              {s with ready := s.ready ++ [t.id]}) := by
          unfold applyEffect wakeSchedule scheduleTask
          rw [if_neg (by rw [hflag]; exact Bool.false_ne_true)]
        rw [hstep, happ]
        have ih := applyEffects_spec rest {t with scheduled := true}
          {s with ready := s.ready ++ [t.id]}
        rcases ih with ⟨i1, i2, i3, i4, i5, i6, i7⟩
        refine ⟨i1, i2, ?_, i4, i5, i6, ?_⟩
        · rw [i3]
          simp
        · rw [i7]
          simp
      · have happ : applyEffect t s Effect.wakeSelf = (t, s) := by
          unfold applyEffect wakeSchedule
          rw [if_pos hflag]
        rw [hstep, happ]
        have ih := applyEffects_spec rest t s
        rcases ih with ⟨i1, i2, i3, i4, i5, i6, i7⟩
        refine ⟨i1, i2, ?_, i4, i5, i6, ?_⟩
        · rw [i3, hflag]
          simp
        · rw [i7, hflag]
          simp
    · have happ : applyEffect t s (Effect.regTimer d)
          = (t, {s with timers := registerTimer s.timers t.id d}) := rfl
      rw [hstep, happ]
      have ih := applyEffects_spec rest t
        {s with timers := registerTimer s.timers t.id d}
      rcases ih with ⟨i1, i2, i3, i4, i5, i6, i7⟩
      refine ⟨i1, i2, ?_, i4, i5, i6, ?_⟩
      · rw [i3]
        simp [List.mem_cons]
      · rw [i7]
        simp [List.mem_cons]

theorem drainBody_eq_nil (s1 : SchedState) (id tid : Nat) (flag : Bool) :
    drainBody s1 id ⟨tid, flag, []⟩
      = {s1 with tasks := mapRemove s1.tasks id} := rfl

theorem drainBody_eq_cons (s1 : SchedState) (id tid : Nat) (flag : Bool)
    (effs : List Effect) (pend : Bool) (ps : List (List Effect × Bool)) :
    drainBody s1 id ⟨tid, flag, (effs, pend) :: ps⟩ =
      (if pend = true then
        {(applyEffects ⟨tid, false, ps⟩
            {s1 with tasks := mapRemove s1.tasks id} effs).2 with
          tasks := mapInsert (applyEffects ⟨tid, false, ps⟩
              {s1 with tasks := mapRemove s1.tasks id} effs).2.tasks id
            (applyEffects ⟨tid, false, ps⟩
              {s1 with tasks := mapRemove s1.tasks id} effs).1}
      else (applyEffects ⟨tid, false, ps⟩
        {s1 with tasks := mapRemove s1.tasks id} effs).2) := rfl

theorem drainBody_ready (s1 : SchedState) (id : Nat) (t : RTask) :
    (drainBody s1 id t).ready = s1.ready ++
      (match t.prog with
        | [] => []
        | (effs, _) :: _ =>
          if Effect.wakeSelf ∈ effs then [t.id] else []) := by
  rcases t with ⟨tid, flag, _ | ⟨⟨effs, pend⟩, ps⟩⟩
  · rw [drainBody_eq_nil]
    simp
  · rw [drainBody_eq_cons]
    rcases applyEffects_spec effs ⟨tid, false, ps⟩
      {s1 with tasks := mapRemove s1.tasks id} with ⟨_, _, _, _, _, _, a7⟩
    rcases pend with _ | _
    · rw [if_neg Bool.false_ne_true, a7]
      simp
    · rw [if_pos rfl]
      show (applyEffects ⟨tid, false, ps⟩
        {s1 with tasks := mapRemove s1.tasks id} effs).2.ready = _
      rw [a7]
      simp

theorem drainBody_pending_eq (s1 : SchedState) (id : Nat) (t : RTask) :
    (drainBody s1 id t).pending = s1.pending := by
  rcases t with ⟨tid, flag, _ | ⟨⟨effs, pend⟩, ps⟩⟩
  · rw [drainBody_eq_nil]
  · rw [drainBody_eq_cons]
    rcases applyEffects_spec effs ⟨tid, false, ps⟩
      {s1 with tasks := mapRemove s1.tasks id} with ⟨_, _, _, _, a5, _, _⟩
    rcases pend with _ | _
    · rw [if_neg Bool.false_ne_true, a5]
    · rw [if_pos rfl]
      show (applyEffects ⟨tid, false, ps⟩
        {s1 with tasks := mapRemove s1.tasks id} effs).2.pending = _
      rw [a5]

theorem drainBody_lookup_ne (s1 : SchedState) (id : Nat) (t : RTask)
    (i : Nat) (hne : id ≠ i) :
    mapLookup (drainBody s1 id t).tasks i = mapLookup s1.tasks i := by
  rcases t with ⟨tid, flag, _ | ⟨⟨effs, pend⟩, ps⟩⟩
  · rw [drainBody_eq_nil]
    exact mapLookup_mapRemove_ne s1.tasks id i hne
  · rw [drainBody_eq_cons]
    rcases applyEffects_spec effs ⟨tid, false, ps⟩
      {s1 with tasks := mapRemove s1.tasks id} with ⟨_, _, _, a4, _, _, _⟩
    rcases pend with _ | _
    · rw [if_neg Bool.false_ne_true, a4]
      exact mapLookup_mapRemove_ne s1.tasks id i hne
    · rw [if_pos rfl]
      show mapLookup (mapInsert (applyEffects ⟨tid, false, ps⟩
          {s1 with tasks := mapRemove s1.tasks id} effs).2.tasks id
          (applyEffects ⟨tid, false, ps⟩
            {s1 with tasks := mapRemove s1.tasks id} effs).1) i = _
      rw [mapLookup_mapInsert_ne _ id i _ hne, a4]
      exact mapLookup_mapRemove_ne s1.tasks id i hne

theorem drainBody_lookup_self_pending (s1 : SchedState) (id : Nat)
    (t : RTask) (effs : List Effect) (ps : List (List Effect × Bool))
    (hprog : t.prog = (effs, true) :: ps) :
    (mapLookup (drainBody s1 id t).tasks id).isSome = true := by
  rcases t with ⟨tid, flag, prog⟩
  simp only at hprog
  rw [hprog, drainBody_eq_cons, if_pos rfl]
  show (mapLookup (mapInsert (applyEffects ⟨tid, false, ps⟩
      {s1 with tasks := mapRemove s1.tasks id} effs).2.tasks id
      (applyEffects ⟨tid, false, ps⟩
        {s1 with tasks := mapRemove s1.tasks id} effs).1) id).isSome = true
  rw [mapLookup_mapInsert_self]
  rfl

theorem drainBody_measure (s1 : SchedState) (id : Nat) (t : RTask)
    (hsome : mapLookup s1.tasks id = some t) :
    pollMeasure (drainBody s1 id t) ≤ pollMeasure s1 := by
  have hrm := sum_mapRemove_add_le (fun p => p.2.prog.length) s1.tasks id t
    hsome
  rcases t with ⟨tid, flag, _ | ⟨⟨effs, pend⟩, ps⟩⟩
  · rw [drainBody_eq_nil]
    unfold pollMeasure
    simp only at hrm ⊢
    omega
  · rcases applyEffects_spec effs ⟨tid, false, ps⟩
      {s1 with tasks := mapRemove s1.tasks id} with ⟨_, a2, _, a4, _, _, a7⟩
    have hext : (if True ∧ Effect.wakeSelf ∈ effs then [tid]
        else ([] : List Nat)).length ≤ 1 := by
      by_cases hm : Effect.wakeSelf ∈ effs
      · simp [hm]
      · simp [hm]
    simp only [List.length_cons] at hrm
    rw [drainBody_eq_cons]
    rcases pend with _ | _
    · rw [if_neg Bool.false_ne_true]
      unfold pollMeasure
      rw [a4, a7]
      simp only [List.length_append]
      simp only at hext ⊢
      omega
    · rw [if_pos rfl]
      unfold pollMeasure
      show (List.map (fun p => p.2.prog.length)
          (mapInsert (applyEffects ⟨tid, false, ps⟩
            {s1 with tasks := mapRemove s1.tasks id} effs).2.tasks id
            (applyEffects ⟨tid, false, ps⟩
              {s1 with tasks := mapRemove s1.tasks id} effs).1)).sum
          + (applyEffects ⟨tid, false, ps⟩
            {s1 with tasks := mapRemove s1.tasks id} effs).2.ready.length
          ≤ _
      rw [sum_mapInsert_absent _ _ _ _
        (by rw [a4]; exact mapLookup_mapRemove_self s1.tasks id)]
      rw [a4, a7]
      have ha2 : (applyEffects (⟨tid, false, ps⟩ : RTask)
          {s1 with tasks := mapRemove s1.tasks id} effs).1.prog.length
          = ps.length := by rw [a2]
      simp only [List.length_append]
      simp only at hext ⊢
      omega

theorem mem_mapInsert {κ β : Type} [DecidableEq κ] :
    ∀ (m : List (κ × β)) (k : κ) (v : β) (p : κ × β),
      p ∈ mapInsert m k v → p = (k, v) ∨ p ∈ m
  | [], k, v, p, h => by
    simp [mapInsert] at h
    exact Or.inl h
  | (k', v') :: rest, k, v, p, h => by
    simp only [mapInsert] at h
    by_cases hk : k' = k
    · rw [if_pos hk] at h
      rcases List.mem_cons.mp h with h1 | h1
      · exact Or.inl h1
      · exact Or.inr (List.mem_cons_of_mem _ h1)
    · rw [if_neg hk] at h
      rcases List.mem_cons.mp h with h1 | h1
      · exact Or.inr (by rw [h1]; exact List.mem_cons_self _ _)
      · rcases mem_mapInsert rest k v p h1 with h2 | h2
        · exact Or.inl h2
        · exact Or.inr (List.mem_cons_of_mem _ h2)

theorem drainBody_no_wake (s1 : SchedState) (id : Nat) (t : RTask)
    (hsome : mapLookup s1.tasks id = some t)
    (hall : ∀ p ∈ s1.tasks, NoWake p.2.prog) :
    ∀ p ∈ (drainBody s1 id t).tasks, NoWake p.2.prog := by
  have htw : NoWake t.prog := hall (id, t) (mapLookup_some_mem _ _ _ hsome)
  rcases t with ⟨tid, flag, _ | ⟨⟨effs, pend⟩, ps⟩⟩
  · rw [drainBody_eq_nil]
    intro p hp
    exact hall p (List.mem_of_mem_filter hp)
  · rcases applyEffects_spec effs ⟨tid, false, ps⟩
      {s1 with tasks := mapRemove s1.tasks id} with ⟨_, a2, _, a4, _, _, _⟩
    have hps : NoWake ps := by
      intro st hst
      exact htw st (List.mem_cons_of_mem _ hst)
    rw [drainBody_eq_cons]
    rcases pend with _ | _
    · rw [if_neg Bool.false_ne_true]
      intro p hp
      rw [a4] at hp
      exact hall p (List.mem_of_mem_filter hp)
    · rw [if_pos rfl]
      intro p hp
      have hp2 : p ∈ mapInsert (applyEffects ⟨tid, false, ps⟩
          {s1 with tasks := mapRemove s1.tasks id} effs).2.tasks id
          (applyEffects ⟨tid, false, ps⟩
            {s1 with tasks := mapRemove s1.tasks id} effs).1 := hp
      rcases mem_mapInsert _ _ _ _ hp2 with h1 | h1
      · rw [h1]
        show NoWake (applyEffects (⟨tid, false, ps⟩ : RTask)
          {s1 with tasks := mapRemove s1.tasks id} effs).1.prog
        rw [a2]
        exact hps
      · rw [a4] at h1
        exact hall p (List.mem_of_mem_filter h1)

theorem pollMeasure_ready_cons (s : SchedState) (id : Nat)
    (rest : List Nat) (hready : s.ready = id :: rest) :
    pollMeasure s = pollMeasure {s with ready := rest} + 1 := by
  unfold pollMeasure
  rw [hready]
  simp
  omega

theorem drainGo_no_wake :
    ∀ (fuel : Nat) (s : SchedState), pollMeasure s ≤ fuel →
      (∀ p ∈ s.tasks, NoWake p.2.prog) → s.ready.Nodup →
      (∀ i ∈ s.ready, (mapLookup s.tasks i).isSome = true) →
      (drainGo fuel s).2 = s.ready
  | 0, s, hfuel, _, _, _ => by
    have hr : s.ready = [] := by
      refine List.eq_nil_of_length_eq_zero ?_
      unfold pollMeasure at hfuel
      omega
    rw [hr]
    rfl
  | fuel + 1, s, hfuel, hall, hnd, hlk => by
    rcases hready : s.ready with _ | ⟨id, rest⟩
    · simp only [drainGo, hready]
    · have hsome : (mapLookup s.tasks id).isSome = true := by
        refine hlk id ?_
        rw [hready]
        exact List.mem_cons_self _ _
      rcases Option.isSome_iff_exists.mp hsome with ⟨t, ht⟩
      have htw : NoWake t.prog := hall (id, t) (mapLookup_some_mem _ _ _ ht)
      have hext : (drainBody {s with ready := rest} id t).ready = rest := by
        rw [drainBody_ready]
        rcases hprog : t.prog with _ | ⟨⟨effs, pend⟩, ps⟩
        · simp
        · have hmemc : (effs, pend) ∈ t.prog := by
            rw [hprog]
            exact List.mem_cons_self (effs, pend) ps
          have hnw : Effect.wakeSelf ∉ effs := by
            simpa using htw (effs, pend) hmemc
          simp [hnw]
      have hnd2 : (id :: rest).Nodup := by rw [← hready]; exact hnd
      have hidrest : id ∉ rest := (List.nodup_cons.mp hnd2).1
      have hrec := drainGo_no_wake fuel (drainBody {s with ready := rest} id t)
        (by
          have h1 := drainBody_measure {s with ready := rest} id t ht
          have h2 := pollMeasure_ready_cons s id rest hready
          omega)
        (drainBody_no_wake {s with ready := rest} id t ht hall)
        (by rw [hext]; exact (List.nodup_cons.mp hnd2).2)
        (by
          intro i hi
          rw [hext] at hi
          rw [drainBody_lookup_ne _ _ _ _
            (fun he => hidrest (by rw [he]; exact hi))]
          exact hlk i (by rw [hready]; exact List.mem_cons_of_mem _ hi))
      simp only [drainGo, hready, ht]
      rw [hrec, hext]

theorem drainGo_mem_log :
    ∀ (fuel : Nat) (s : SchedState) (i : Nat), pollMeasure s ≤ fuel →
      i ∈ s.ready → (mapLookup s.tasks i).isSome = true →
      i ∈ (drainGo fuel s).2
  | 0, s, i, hfuel, hmem, _ => by
    have hr : s.ready = [] := by
      refine List.eq_nil_of_length_eq_zero ?_
      unfold pollMeasure at hfuel
      omega
    rw [hr] at hmem
    exact absurd hmem (List.not_mem_nil i)
  | fuel + 1, s, i, hfuel, hmem, hlk => by
    rcases hready : s.ready with _ | ⟨id, rest⟩
    · rw [hready] at hmem
      exact absurd hmem (List.not_mem_nil i)
    · have hmes : pollMeasure {s with ready := rest} ≤ fuel := by
        have := pollMeasure_ready_cons s id rest hready
        omega
      by_cases hii : id = i
      · subst hii
        rcases Option.isSome_iff_exists.mp hlk with ⟨t, ht⟩
        simp only [drainGo, hready, ht]
        exact List.mem_cons_self _ _
      · have hirest : i ∈ rest := by
          rw [hready] at hmem
          rcases List.mem_cons.mp hmem with h | h
          · exact absurd h.symm hii
          · exact h
        rcases hcase : mapLookup s.tasks id with _ | t
        · simp only [drainGo, hready, hcase]
          exact drainGo_mem_log fuel {s with ready := rest} i hmes hirest hlk
        · have hbm : pollMeasure (drainBody {s with ready := rest} id t)
              ≤ fuel :=
            le_trans (drainBody_measure {s with ready := rest} id t hcase)
              hmes
          have hbr : i ∈ (drainBody {s with ready := rest} id t).ready := by
            rw [drainBody_ready]
            exact List.mem_append_left _ hirest
          have hbl : (mapLookup
              (drainBody {s with ready := rest} id t).tasks i).isSome
              = true := by
            rw [drainBody_lookup_ne _ _ _ _ hii]
            exact hlk
          simp only [drainGo, hready, hcase]
          exact List.mem_cons_of_mem _
            (drainGo_mem_log fuel _ i hbm hbr hbl)

/-- C4 (amended): the drain phase of `tick` is FIFO — when no task wakes
anything during its polls, the distinct ready ids with live entries are
polled exactly in queue order — but the drain loop runs until the queue is
empty, so a task that re-wakes itself during its own poll (and returns
pending) is appended at the back and polled again within the same tick
invocation, not deferred to a subsequent tick: its id occurs at least
twice in the tick's poll log. -/
theorem tick_drain_fifo_and_same_tick_repoll :
    (∀ s : SchedState,
      (∀ p ∈ s.tasks, NoWake p.2.prog) → s.ready.Nodup →
      (∀ i ∈ s.ready, (mapLookup s.tasks i).isSome = true) →
      (drainReady s).2 = s.ready) ∧
      ∀ (s : SchedState) (i : Nat) (rest : List Nat) (t : RTask)
        (effs : List Effect) (ps : List (List Effect × Bool)),
        s.ready = i :: rest → mapLookup s.tasks i = some t → t.id = i →
        t.prog = (effs, true) :: ps → Effect.wakeSelf ∈ effs →
        2 ≤ ((drainReady s).2).count i := by
  constructor
  · intro s hall hnd hlk
    exact drainGo_no_wake (pollMeasure s) s le_rfl hall hnd hlk
  · intro s i rest t effs ps hready hsome hid hprog hm
    have hmeq := pollMeasure_ready_cons s i rest hready
    have hmes : pollMeasure (drainBody {s with ready := rest} i t)
        ≤ pollMeasure {s with ready := rest} :=
      drainBody_measure {s with ready := rest} i t hsome
    have hbr : i ∈ (drainBody {s with ready := rest} i t).ready := by
      rw [drainBody_ready, hprog]
      simp only [hm, if_pos, hid]
      exact List.mem_append_right _ (by simp [hid])
    have hbl := drainBody_lookup_self_pending {s with ready := rest} i t
      effs ps hprog
    have hin : i ∈ (drainGo (pollMeasure {s with ready := rest})
        (drainBody {s with ready := rest} i t)).2 :=
      drainGo_mem_log _ _ i hmes hbr hbl
    unfold drainReady
    rw [hmeq]
    simp only [drainGo, hready, hsome]
    rw [List.count_cons_self]
    have := List.count_pos_iff.mpr hin
    omega

/-- Witness for C4 (amended): a wake-free task is polled once in queue
order, and a self-waking task's id is logged twice in one drain. -/
theorem tick_drain_fifo_and_same_tick_repoll_witness :
    (drainReady ⟨[(4, ⟨4, true, [([Effect.regTimer 9], true)]⟩)], [4], [],
        MinHeap.new, ⟨[], []⟩⟩).2 = [4] ∧
      2 ≤ ((drainReady
        ⟨[(0, ⟨0, true, [([Effect.wakeSelf], true), ([], false)]⟩)], [0], [],
          MinHeap.new, ⟨[], []⟩⟩).2).count 0 :=
  ⟨tick_drain_fifo_and_same_tick_repoll.1
      ⟨[(4, ⟨4, true, [([Effect.regTimer 9], true)]⟩)], [4], [],
        MinHeap.new, ⟨[], []⟩⟩ (by decide) (by decide) (by decide),
    tick_drain_fifo_and_same_tick_repoll.2
      ⟨[(0, ⟨0, true, [([Effect.wakeSelf], true), ([], false)]⟩)], [0], [],
        MinHeap.new, ⟨[], []⟩⟩ 0 []
      ⟨0, true, [([Effect.wakeSelf], true), ([], false)]⟩
      [Effect.wakeSelf] [([], false)] rfl rfl rfl rfl (by decide)⟩

theorem TimerKey.wakeAt_mono {a b : TimerKey} (h : a ≤ b) :
    a.wakeAt ≤ b.wakeAt := by
  rcases (Prod.Lex.le_iff (ofLex a) (ofLex b)).mp h with h1 | h1
  · exact le_of_lt h1
  · exact le_of_eq h1.1

theorem processTimersGo_spec :
    ∀ (fuel now : Nat) (tm : MinHeap TimerKey) (ready : List Nat),
      tm.len ≤ fuel → IsHeap tm.buf →
      ∃ w : List TimerKey,
        (processTimersGo fuel now tm ready).2
            = ready ++ w.map TimerKey.taskId ∧
          List.Perm w
            (tm.buf.filter fun e => decide (e.wakeAt ≤ now)) ∧
          (w.map TimerKey.wakeAt).Sorted (· ≤ ·) ∧
          List.Perm (processTimersGo fuel now tm ready).1.buf
            (tm.buf.filter fun e => decide (now < e.wakeAt)) ∧
          IsHeap (processTimersGo fuel now tm ready).1.buf
  | 0, now, tm, ready, hfuel, hH => by
    have hbuf : tm.buf = [] := List.eq_nil_of_length_eq_zero (by
      unfold MinHeap.len at hfuel
      omega)
    refine ⟨[], by simp [processTimersGo], ?_, List.sorted_nil, ?_, ?_⟩
    · rw [hbuf]
      simp [List.Perm.refl]
    · show List.Perm tm.buf _
      rw [hbuf]
      simp [List.Perm.refl]
    · exact hH
  | fuel + 1, now, tm, ready, hfuel, hH => by
    rcases hbuf : tm.buf with _ | ⟨x, tb⟩
    · have hpop : tm.pop = none := by
        unfold MinHeap.pop
        rw [hbuf]
      refine ⟨[], by simp [processTimersGo, hpop], ?_, List.sorted_nil,
        ?_, ?_⟩
      · simp [List.Perm.refl]
      · simp only [processTimersGo, hpop]
        simp [List.Perm.refl]
        exact hbuf
      · simp only [processTimersGo, hpop]
        exact hH
    · rcases MinHeap.pop_spec tm x tb hbuf hH with ⟨h', hpop, hperm, hH', hmin⟩
      by_cases hcx : x.wakeAt ≤ now
      · have hlen' : h'.len ≤ fuel := by
          unfold MinHeap.len
          rw [hperm.length_eq]
          have : tm.len = tb.length + 1 := by
            unfold MinHeap.len
            rw [hbuf]
            rfl
          omega
        rcases processTimersGo_spec fuel now h' (ready ++ [x.taskId]) hlen'
          hH' with ⟨w', ih1, ih2, ih3, ih4, ih5⟩
        have hstep : processTimersGo (fuel + 1) now tm ready
            = processTimersGo fuel now h' (ready ++ [x.taskId]) := by
          simp only [processTimersGo, hpop]
          rw [if_pos hcx]
        refine ⟨x :: w', ?_, ?_, ?_, ?_, ?_⟩
        · rw [hstep, ih1]
          simp
        · rw [List.filter_cons, if_pos (by simpa using hcx)]
          exact (ih2.trans (hperm.filter _)).cons x
        · refine List.sorted_cons.mpr ⟨?_, ih3⟩
          intro b hb
          rcases List.mem_map.mp hb with ⟨e, he, hbe⟩
          have he2 : e ∈ tm.buf := by
            rw [hbuf]
            refine List.mem_cons_of_mem _ ?_
            exact hperm.mem_iff.mp (List.mem_of_mem_filter (ih2.mem_iff.mp he))
          rw [← hbe]
          exact TimerKey.wakeAt_mono (hmin e he2)
        · rw [hstep]
          refine ih4.trans ?_
          rw [List.filter_cons, if_neg (by simpa using hcx)]
          exact hperm.filter _
        · rw [hstep]
          exact ih5
      · have hstep : processTimersGo (fuel + 1) now tm ready
            = (h'.push x, ready) := by
          simp only [processTimersGo, hpop]
          rw [if_neg hcx]
        have hallbig : ∀ y ∈ x :: tb, ¬ y.wakeAt ≤ now := by
          intro y hy hyle
          have hy2 : y ∈ tm.buf := by
            rw [hbuf]
            exact hy
          exact hcx (le_trans (TimerKey.wakeAt_mono (hmin y hy2)) hyle)
        refine ⟨[], by rw [hstep]; simp, ?_, List.sorted_nil, ?_, ?_⟩
        · rw [List.filter_eq_nil_iff.mpr (by
            intro a ha
            simpa using hallbig a ha)]
        · rw [hstep]
          have hfil : (x :: tb).filter (fun e => decide (now < e.wakeAt))
              = x :: tb := by
            refine List.filter_eq_self.mpr ?_
            intro a ha
            simpa using lt_of_not_le (hallbig a ha)
          rw [hfil]
          exact (MinHeap.push_perm h' x).trans (hperm.cons x)
        · rw [hstep]
          exact MinHeap.push_isHeap h' x hH'

/-- C6: `Scheduler::process_timers` run at time `now` on a well-formed
timer heap wakes exactly the timer entries whose deadline is ≤ `now`
(appending their task ids to the ready queue), wakes them in
nondecreasing deadline order, and leaves exactly the unexpired entries
in the heap, which remains a well-formed heap. -/
theorem process_timers_wakes_expired_sorted (now : Nat)
    (timers : MinHeap TimerKey) (ready : List Nat)
    (hH : IsHeap timers.buf) :
    ∃ w : List TimerKey,
      (processTimers now timers ready).2 = ready ++ w.map TimerKey.taskId ∧
        List.Perm w (timers.buf.filter fun e => decide (e.wakeAt ≤ now)) ∧
        (w.map TimerKey.wakeAt).Sorted (· ≤ ·) ∧
        List.Perm (processTimers now timers ready).1.buf
          (timers.buf.filter fun e => decide (now < e.wakeAt)) ∧
        IsHeap (processTimers now timers ready).1.buf :=
  processTimersGo_spec timers.len now timers ready le_rfl hH

theorem process_timers_wakes_expired_sorted_witness :
    IsHeap ([toLex (3, 2), toLex (5, 1), toLex (9, 3)] : List TimerKey) ∧
    ∃ w : List TimerKey,
      (processTimers 5 ⟨[toLex (3, 2), toLex (5, 1), toLex (9, 3)]⟩
          [7]).2 = [7] ++ w.map TimerKey.taskId ∧
        List.Perm w
          (([toLex (3, 2), toLex (5, 1), toLex (9, 3)] :
            List TimerKey).filter fun e => decide (e.wakeAt ≤ 5)) ∧
        (w.map TimerKey.wakeAt).Sorted (· ≤ ·) ∧
        List.Perm
          (processTimers 5 ⟨[toLex (3, 2), toLex (5, 1), toLex (9, 3)]⟩
            [7]).1.buf
          (([toLex (3, 2), toLex (5, 1), toLex (9, 3)] :
            List TimerKey).filter fun e => decide (5 < e.wakeAt)) ∧
        IsHeap
          (processTimers 5 ⟨[toLex (3, 2), toLex (5, 1), toLex (9, 3)]⟩
            [7]).1.buf :=
  ⟨by decide, process_timers_wakes_expired_sorted 5
    ⟨[toLex (3, 2), toLex (5, 1), toLex (9, 3)]⟩ [7] (by decide)⟩
